import Mathlib

/-!
Shallow embedding of the `graphix_to_hugr` MBQC-to-HUGR translator
(`src/types.rs`, `src/hugr.rs`, `src/converter.rs`) and verification of
its specification claims.

Rust `f64` angles are modelled as `ℚ`: the only operations performed on
angles are negation, absolute value and comparison with the constant
`1e-10`, all of which are exact, so the branching structure is faithfully
captured.  Rust `HashMap`s are modelled as association lists (the code
only ever gets, inserts and removes single keys; it never iterates), and
`HashSet` domains as lists up to duplication/order (the code only tests
emptiness, sorts the elements, and looks them up).  `Hugr.nodes`
(`HashMap<usize, Node>` in Rust, keyed by the monotonically assigned node
id and never removed from) is modelled as the list of nodes in insertion
order.
-/

namespace MQBCToHUGR

/-- A dataflow wire: output `port` of node `node_id` (src/hugr.rs `Wire`). -/
structure Wire where
  node_id : Nat
  port : Nat
deriving DecidableEq

def Wire.new (node_id port : Nat) : Wire := ⟨node_id, port⟩

/-- HUGR value types (src/hugr.rs `HugrType`). -/
inductive HugrType where
  | Qubit
  | Bool
  | Float64
deriving DecidableEq

/-- Function signature (src/hugr.rs `FunctionType`). -/
structure FunctionType where
  inputs : List HugrType
  outputs : List HugrType
deriving DecidableEq

def FunctionType.new (inputs outputs : List HugrType) : FunctionType := ⟨inputs, outputs⟩

/-- Constant values (src/hugr.rs `ConstValue`); `f64` modelled as `ℚ`. -/
inductive ConstValue where
  | Bool (b : Bool)
  | Float (f : ℚ)
deriving DecidableEq

/-- HUGR operations (src/hugr.rs `Operation`). -/
inductive Operation where
  | Input (types : List HugrType)
  | Output (types : List HugrType)
  | Custom (name : String) (signature : FunctionType) (extension : String) (args : List ℚ)
  | Const (value : ConstValue)
  | LoadConst (const_node : Nat)
  | DFG (signature : FunctionType)
deriving DecidableEq

/-- A HUGR node (src/hugr.rs `Node`). -/
structure Node where
  id : Nat
  operation : Operation
  inputs : List Wire
  outputs : List Wire
deriving DecidableEq

/-- Models `Node::out` (src/hugr.rs line 101). -/
def Node.out (n : Node) (port : Nat) : Wire := Wire.new n.id port

/-- The HUGR graph (src/hugr.rs `Hugr`); the `nodes` map is kept as the
list of nodes in insertion (= ascending id) order. -/
structure Hugr where
  nodes : List Node
  next_node_id : Nat
  root : Nat
deriving DecidableEq

def Hugr.new : Hugr := ⟨[], 0, 0⟩

/-- Models `Hugr::add_node` (src/hugr.rs lines 123-131): inserts a node with the
given operation and empty input/output lists, returning its fresh id. -/
def Hugr.add_node (h : Hugr) (operation : Operation) : Hugr × Nat :=
  let id := h.next_node_id
  ({ nodes := h.nodes ++ [⟨id, operation, [], []⟩], next_node_id := id + 1, root := h.root }, id)

/-- Models `Hugr::get_node` (src/hugr.rs line 133). -/
def Hugr.getNode (h : Hugr) (id : Nat) : Option Node :=
  h.nodes.find? (fun n => n.id == id)

/-- Models `Hugr::len` (src/hugr.rs line 141). -/
def Hugr.len (h : Hugr) : Nat := h.nodes.length

/-- Number of output ports materialized by `DfgBuilder::add_op`
(src/hugr.rs lines 189-194). -/
def Operation.numOutputs : Operation → Nat
  | Operation.Custom _ signature _ _ => signature.outputs.length
  | Operation.LoadConst _ => 1
  | _ => 0

/-- The dataflow-graph builder (src/hugr.rs `DfgBuilder`). -/
structure DfgBuilder where
  hugr : Hugr
  input_node_id : Nat
  output_node_id : Option Nat
  input_wires : List Wire
deriving DecidableEq

/-- Models `DfgBuilder::new` (src/hugr.rs lines 160-181). -/
def DfgBuilder.new (input_types : List HugrType) : DfgBuilder :=
  let r := Hugr.new.add_node (Operation.Input input_types)
  { hugr := r.1, input_node_id := r.2, output_node_id := none,
    input_wires := (List.range input_types.length).map (fun port => Wire.new r.2 port) }

/-- Models `DfgBuilder::add_op` (src/hugr.rs lines 183-202): inserts a node for
`operation`, sets its inputs, and materializes `numOutputs` output wires. -/
def DfgBuilder.add_op (b : DfgBuilder) (operation : Operation) (inputs : List Wire) :
    DfgBuilder × Node :=
  let id := b.hugr.next_node_id
  let node : Node :=
    ⟨id, operation, inputs, (List.range operation.numOutputs).map (fun port => Wire.new id port)⟩
  ({ b with hugr := { nodes := b.hugr.nodes ++ [node], next_node_id := id + 1, root := b.hugr.root } },
   node)

/-- Models `DfgBuilder::add_const` (src/hugr.rs lines 204-207). -/
def DfgBuilder.add_const (b : DfgBuilder) (value : ConstValue) : DfgBuilder × Nat :=
  let r := b.hugr.add_node (Operation.Const value)
  ({ b with hugr := r.1 }, r.2)

/-- Models `DfgBuilder::load_const` (src/hugr.rs lines 209-215). -/
def DfgBuilder.load_const (b : DfgBuilder) (const_node_id : Nat) : DfgBuilder × Wire :=
  let r := b.add_op (Operation.LoadConst const_node_id) []
  (r.1, r.2.out 0)

/-- Models `DfgBuilder::set_outputs` (src/hugr.rs lines 217-231): declares every
output type as `Qubit` ("Simplified - would need proper type tracking"). -/
def DfgBuilder.set_outputs (b : DfgBuilder) (outputs : List Wire) : DfgBuilder :=
  let output_types := outputs.map (fun _ => HugrType.Qubit)
  let id := b.hugr.next_node_id
  let node : Node := ⟨id, Operation.Output output_types, outputs, []⟩
  { b with
    hugr := { nodes := b.hugr.nodes ++ [node], next_node_id := id + 1, root := b.hugr.root },
    output_node_id := some id }

/-- Measurement plane (src/types.rs `Plane`). -/
inductive Plane where
  | XY
  | YZ
  | XZ
deriving DecidableEq

/-- Clifford gate elements (src/types.rs `CliffordGate`). -/
inductive CliffordGate where
  | I
  | X
  | Y
  | Z
  | S
  | SDG
  | H
deriving DecidableEq

/-- Graphix commands (src/types.rs `Command`); `HashSet` domains are lists
(membership semantics), `f64` angles are `ℚ`. -/
inductive Command where
  | N (node : Nat)
  | E (nodes : Nat × Nat)
  | M (node : Nat) (plane : Plane) (angle : ℚ)
  | X (node : Nat) (domain : List Nat)
  | Z (node : Nat) (domain : List Nat)
  | C (node : Nat) (clifford : List CliffordGate)
deriving DecidableEq

/-- A Graphix MBQC pattern (src/types.rs `Pattern`). -/
structure Pattern where
  input_nodes : List Nat
  output_nodes : List Nat
  commands : List Command
deriving DecidableEq

/-- Ascending sort of a list of identifiers: models Rust `Vec::sort`. -/
def sortAsc (l : List Nat) : List Nat := List.insertionSort (· ≤ ·) l

/-- Remove consecutive duplicates: models Rust `Vec::dedup`. -/
def dedupConsecutive (l : List Nat) : List Nat := l.destutter (· ≠ ·)

/-- Models `HashMap::get` on the association-list model (first binding wins). -/
def mGet (m : List (Nat × Wire)) (k : Nat) : Option Wire :=
  (m.find? (fun p => p.1 == k)).map (fun p => p.2)

/-- Models `HashMap::insert` on the model: new binding shadows older ones. -/
def mInsert (k : Nat) (v : Wire) (m : List (Nat × Wire)) : List (Nat × Wire) :=
  (k, v) :: m

/-- Models `HashMap::remove` on the model. -/
def mRemove (k : Nat) (m : List (Nat × Wire)) : List (Nat × Wire) :=
  m.filter (fun p => p.1 != k)

/-- Extension string `quantum.mbqc` (src/converter.rs line 8). -/
def quantumExt : String := "quantum.mbqc"

/-- Extension string `logic` (src/converter.rs line 9). -/
def logicExt : String := "logic"

/-- The `1e-10` rotation-elision threshold of src/converter.rs. -/
def rustEps : ℚ := mkRat 1 10000000000

/-- Conversion errors (src/converter.rs `ConversionError`). -/
inductive ConversionError where
  | OutputNodeNotFound (id : Nat)
  | NodeNotFound (id : Nat)
deriving DecidableEq

/-- The converter's persistent state (src/converter.rs
`GraphixToHugrConverter`): note that `convert` never clears these fields. -/
structure GraphixToHugrConverter where
  dfg : Option DfgBuilder
  qubit_wires : List (Nat × Wire)
  classical_wires : List (Nat × Wire)
  node_order : List Nat
deriving DecidableEq

/-- Models `GraphixToHugrConverter::new` (src/converter.rs lines 29-36). -/
def GraphixToHugrConverter.new : GraphixToHugrConverter := ⟨none, [], [], []⟩

/-- Converter state during command processing, with the builder unwrapped:
inside `convert` the field `dfg` is always `Some` (set at line 74 before
the command loop), so every `self.dfg.as_mut().unwrap()` succeeds. -/
structure ActiveConverter where
  dfg : DfgBuilder
  qubit_wires : List (Nat × Wire)
  classical_wires : List (Nat × Wire)
  node_order : List Nat
deriving DecidableEq

def create_h_gate : Operation :=
  Operation.Custom "H" (FunctionType.new [HugrType.Qubit] [HugrType.Qubit]) quantumExt []

def create_x_gate : Operation :=
  Operation.Custom "X" (FunctionType.new [HugrType.Qubit] [HugrType.Qubit]) quantumExt []

def create_y_gate : Operation :=
  Operation.Custom "Y" (FunctionType.new [HugrType.Qubit] [HugrType.Qubit]) quantumExt []

def create_z_gate : Operation :=
  Operation.Custom "Z" (FunctionType.new [HugrType.Qubit] [HugrType.Qubit]) quantumExt []

def create_s_gate : Operation :=
  Operation.Custom "S" (FunctionType.new [HugrType.Qubit] [HugrType.Qubit]) quantumExt []

def create_sdg_gate : Operation :=
  Operation.Custom "Sdg" (FunctionType.new [HugrType.Qubit] [HugrType.Qubit]) quantumExt []

def create_cz_gate : Operation :=
  Operation.Custom "CZ"
    (FunctionType.new [HugrType.Qubit, HugrType.Qubit] [HugrType.Qubit, HugrType.Qubit])
    quantumExt []

def create_rz_gate (angle : ℚ) : Operation :=
  Operation.Custom "Rz" (FunctionType.new [HugrType.Qubit] [HugrType.Qubit]) quantumExt [angle]

def create_rx_gate (angle : ℚ) : Operation :=
  Operation.Custom "Rx" (FunctionType.new [HugrType.Qubit] [HugrType.Qubit]) quantumExt [angle]

def create_ry_gate (angle : ℚ) : Operation :=
  Operation.Custom "Ry" (FunctionType.new [HugrType.Qubit] [HugrType.Qubit]) quantumExt [angle]

def create_measure_op : Operation :=
  Operation.Custom "Measure" (FunctionType.new [HugrType.Qubit] [HugrType.Bool]) quantumExt []

def xor_op : Operation :=
  Operation.Custom "XOR" (FunctionType.new [HugrType.Bool, HugrType.Bool] [HugrType.Bool])
    logicExt []

/-- Models `process_prepare` (src/converter.rs lines 141-156). -/
def process_prepare (node : Nat) (s : ActiveConverter) : ActiveConverter :=
  let prep_op :=
    Operation.Custom "PrepareQubit" (FunctionType.new [] [HugrType.Qubit]) quantumExt []
  let r := s.dfg.add_op prep_op []
  { s with dfg := r.1,
           qubit_wires := mInsert node (r.2.out 0) s.qubit_wires,
           node_order := s.node_order ++ [node] }

/-- Models `process_entangle` (src/converter.rs lines 158-175). -/
def process_entangle (nodes : Nat × Nat) (s : ActiveConverter) : ActiveConverter :=
  match mGet s.qubit_wires nodes.1, mGet s.qubit_wires nodes.2 with
  | some q1, some q2 =>
      let r := s.dfg.add_op create_cz_gate [q1, q2]
      { s with dfg := r.1,
               qubit_wires := mInsert nodes.2 (r.2.out 1) (mInsert nodes.1 (r.2.out 0) s.qubit_wires) }
  | _, _ => s

/-- Models `process_measure` (src/converter.rs lines 177-221). -/
def process_measure (node : Nat) (plane : Plane) (angle : ℚ) (s : ActiveConverter) :
    ActiveConverter :=
  match mGet s.qubit_wires node with
  | none => s
  | some qubit_wire =>
    let st1 : DfgBuilder × Wire :=
      match plane with
      | Plane.XY =>
          let st0 : DfgBuilder × Wire :=
            if |angle| > rustEps then
              let r := s.dfg.add_op (create_rz_gate (-angle)) [qubit_wire]
              (r.1, r.2.out 0)
            else (s.dfg, qubit_wire)
          let r := st0.1.add_op create_h_gate [st0.2]
          (r.1, r.2.out 0)
      | Plane.YZ =>
          if |angle| > rustEps then
            let r := s.dfg.add_op (create_rx_gate (-angle)) [qubit_wire]
            (r.1, r.2.out 0)
          else (s.dfg, qubit_wire)
      | Plane.XZ =>
          if |angle| > rustEps then
            let r := s.dfg.add_op (create_ry_gate angle) [qubit_wire]
            (r.1, r.2.out 0)
          else (s.dfg, qubit_wire)
    let r := st1.1.add_op create_measure_op [st1.2]
    { s with dfg := r.1,
             classical_wires := mInsert node (r.2.out 0) s.classical_wires,
             qubit_wires := mRemove node s.qubit_wires }

/-- One iteration of the XOR-reduction loop (src/converter.rs lines 275-291). -/
def xorStep (acc : ActiveConverter × Wire) (node_idx : Nat) : ActiveConverter × Wire :=
  match mGet acc.1.classical_wires node_idx with
  | some wire =>
      let r := acc.1.dfg.add_op xor_op [acc.2, wire]
      ({ acc.1 with dfg := r.1 }, r.2.out 0)
  | none => acc

/-- Emit `Const(Bool(false))` and a `LoadConst` of it (src/converter.rs
lines 263-265 and 295-297). -/
def load_false (s : ActiveConverter) : ActiveConverter × Wire :=
  let r1 := s.dfg.add_const (ConstValue.Bool false)
  let r2 := r1.1.load_const r1.2
  ({ s with dfg := r2.1 }, r2.2)

/-- Models `compute_xor_of_measurements` (src/converter.rs lines 261-299).  The
`HashSet` domain, collected and sorted, is the sorted list of its distinct
elements; the domain is empty iff that list is. -/
def compute_xor_of_measurements (domain : List Nat) (s : ActiveConverter) :
    ActiveConverter × Wire :=
  match dedupConsecutive (sortAsc domain) with
  | [] => load_false s
  | first_node :: rest =>
    match mGet s.classical_wires first_node with
    | some result => rest.foldl xorStep (s, result)
    | none => load_false s

/-- Models `apply_conditional_gate` (src/converter.rs lines 301-316). -/
def apply_conditional_gate (qubit_wire condition : Wire) (gate_name : String)
    (s : ActiveConverter) : ActiveConverter × Wire :=
  let cond_gate_op :=
    Operation.Custom ("Conditional" ++ gate_name)
      (FunctionType.new [HugrType.Bool, HugrType.Qubit] [HugrType.Qubit]) quantumExt []
  let r := s.dfg.add_op cond_gate_op [condition, qubit_wire]
  ({ s with dfg := r.1 }, r.2.out 0)

/-- Models `process_pauli_x` (src/converter.rs lines 223-229). -/
def process_pauli_x (node : Nat) (domain : List Nat) (s : ActiveConverter) : ActiveConverter :=
  match mGet s.qubit_wires node with
  | none => s
  | some qubit_wire =>
    let r1 := compute_xor_of_measurements domain s
    let r2 := apply_conditional_gate qubit_wire r1.2 "X" r1.1
    { r2.1 with qubit_wires := mInsert node r2.2 r2.1.qubit_wires }

/-- Models `process_pauli_z` (src/converter.rs lines 231-237). -/
def process_pauli_z (node : Nat) (domain : List Nat) (s : ActiveConverter) : ActiveConverter :=
  match mGet s.qubit_wires node with
  | none => s
  | some qubit_wire =>
    let r1 := compute_xor_of_measurements domain s
    let r2 := apply_conditional_gate qubit_wire r1.2 "Z" r1.1
    { r2.1 with qubit_wires := mInsert node r2.2 r2.1.qubit_wires }

/-- The gate emitted for a Clifford element; `I` is skipped
(src/converter.rs lines 242-250). -/
def cliffordOp : CliffordGate → Option Operation
  | CliffordGate.H => some create_h_gate
  | CliffordGate.S => some create_s_gate
  | CliffordGate.X => some create_x_gate
  | CliffordGate.Y => some create_y_gate
  | CliffordGate.Z => some create_z_gate
  | CliffordGate.SDG => some create_sdg_gate
  | CliffordGate.I => none

/-- One iteration of the Clifford loop (src/converter.rs lines 241-255). -/
def cliffordStep (acc : ActiveConverter × Wire) (gate : CliffordGate) :
    ActiveConverter × Wire :=
  match cliffordOp gate with
  | none => acc
  | some op =>
      let r := acc.1.dfg.add_op op [acc.2]
      ({ acc.1 with dfg := r.1 }, r.2.out 0)

/-- Models `process_clifford` (src/converter.rs lines 239-259). -/
def process_clifford (node : Nat) (clifford : List CliffordGate) (s : ActiveConverter) :
    ActiveConverter :=
  match mGet s.qubit_wires node with
  | none => s
  | some qubit_wire =>
    let r := clifford.foldl cliffordStep (s, qubit_wire)
    { r.1 with qubit_wires := mInsert node r.2 r.1.qubit_wires }

/-- Models `process_command` (src/converter.rs lines 130-139). -/
def process_command (cmd : Command) (s : ActiveConverter) : ActiveConverter :=
  match cmd with
  | Command.N node => process_prepare node s
  | Command.E nodes => process_entangle nodes s
  | Command.M node plane angle => process_measure node plane angle s
  | Command.X node domain => process_pauli_x node domain s
  | Command.Z node domain => process_pauli_z node domain s
  | Command.C node clifford => process_clifford node clifford s

/-- Models `get_measured_nodes` (src/converter.rs lines 113-128). -/
def get_measured_nodes (pattern : Pattern) : List Nat :=
  let measured := pattern.commands.foldl (fun acc cmd =>
    match cmd with
    | Command.M node _ _ =>
        if pattern.output_nodes.contains node then acc else acc ++ [node]
    | _ => acc) ([] : List Nat)
  dedupConsecutive (sortAsc measured)

/-- Initial input binding (src/converter.rs lines 69-72): for each sorted
input identifier at position `i`, insert `input_wires[i]` into the
*existing* `qubit_wires` map. -/
def bindInputs (input_nodes : List Nat) (input_wires : List Wire)
    (m : List (Nat × Wire)) : List (Nat × Wire) :=
  (input_nodes.zip input_wires).foldl (fun acc p => mInsert p.1 p.2 acc) m

/-- The converter state after the command loop of `convert`
(src/converter.rs lines 39-79). -/
def processedState (c : GraphixToHugrConverter) (pattern : Pattern) : ActiveConverter :=
  let input_nodes := sortAsc pattern.input_nodes
  let input_types := List.replicate input_nodes.length HugrType.Qubit
  let dfg := DfgBuilder.new input_types
  let s0 : ActiveConverter :=
    ⟨dfg, bindInputs input_nodes dfg.input_wires c.qubit_wires, c.classical_wires, c.node_order⟩
  pattern.commands.foldl (fun s cmd => process_command cmd s) s0

/-- The qubit-output collection loop (src/converter.rs lines 84-91):
returns the first output identifier with no live qubit wire, else the
wires in order. -/
def collectQubitOutputs (qw : List (Nat × Wire)) : List Nat → Except Nat (List Wire)
  | [] => Except.ok []
  | id :: rest =>
    match mGet qw id with
    | none => Except.error id
    | some w => (collectQubitOutputs qw rest).map (fun ws => w :: ws)

/-- One iteration of the classical-output loop (src/converter.rs lines
94-104): a missing classical wire degrades to a loaded `false` constant. -/
def classicalStep (acc : ActiveConverter × List Wire) (node_idx : Nat) :
    ActiveConverter × List Wire :=
  match mGet acc.1.classical_wires node_idx with
  | some w => (acc.1, acc.2 ++ [w])
  | none =>
      let r := load_false acc.1
      (r.1, acc.2 ++ [r.2])

/-- Models `GraphixToHugrConverter::convert` (src/converter.rs lines 39-111),
with the `&mut self` state threaded explicitly. -/
def GraphixToHugrConverter.convert (c : GraphixToHugrConverter) (pattern : Pattern) :
    GraphixToHugrConverter × Except ConversionError Hugr :=
  let output_nodes := sortAsc pattern.output_nodes
  let measured_nodes := get_measured_nodes pattern
  let s1 := processedState c pattern
  match collectQubitOutputs s1.qubit_wires output_nodes with
  | Except.error id =>
      (⟨some s1.dfg, s1.qubit_wires, s1.classical_wires, s1.node_order⟩,
       Except.error (ConversionError.OutputNodeNotFound id))
  | Except.ok qwires =>
      let r := measured_nodes.foldl classicalStep (s1, qwires)
      let b := r.1.dfg.set_outputs r.2
      (⟨some b, r.1.qubit_wires, r.1.classical_wires, r.1.node_order⟩, Except.ok b.hugr)

/-- Models `convert_graphix_pattern_to_hugr` (src/converter.rs lines 430-433). -/
def convert_graphix_pattern_to_hugr (pattern : Pattern) : Except ConversionError Hugr :=
  (GraphixToHugrConverter.new.convert pattern).2

/-! ### Observation functions used to state the claims -/

/-- The type of a constant value. -/
def constType : ConstValue → HugrType
  | ConstValue.Bool _ => HugrType.Bool
  | ConstValue.Float _ => HugrType.Float64

/-- The type loaded by a `LoadConst` node pointing at `const_node`. -/
def loadTargetType (h : Hugr) (const_node : Nat) : Option HugrType :=
  match h.getNode const_node with
  | some cn =>
    match cn.operation with
    | Operation.Const v => some (constType v)
    | _ => none
  | none => none

/-- The type produced on output port `port` by a node with the given
operation. -/
def opPortType (h : Hugr) (op : Operation) (port : Nat) : Option HugrType :=
  match op with
  | Operation.Input types => types[port]?
  | Operation.Custom _ signature _ _ => signature.outputs[port]?
  | Operation.LoadConst const_node => if port = 0 then loadTargetType h const_node else none
  | _ => none

/-- The `HugrType` produced at a wire, read off the graph: `Input` nodes
produce their declared types, custom operations the output types of their
signatures, and a `LoadConst` produces the type of the constant it loads. -/
def Hugr.portType (h : Hugr) (w : Wire) : Option HugrType :=
  match h.getNode w.node_id with
  | none => none
  | some n => opPortType h n.operation w.port

/-- Whether an operation is an `Output`. -/
def Operation.isOutputB : Operation → Bool
  | Operation.Output _ => true
  | _ => false

/-- The threshold is the rational number `10⁻¹⁰`. -/
theorem rustEps_eq : rustEps = 1 / 10000000000 := by
  norm_num [rustEps, Rat.mkRat_eq_div]

/-! ### Association-list map lemmas -/

theorem mGet_nil (k : Nat) : mGet [] k = none := rfl

theorem mGet_mInsert_self (k : Nat) (v : Wire) (m : List (Nat × Wire)) :
    mGet (mInsert k v m) k = some v := by
  simp [mGet, mInsert, List.find?]

theorem mGet_mInsert_ne {k k' : Nat} (h : k' ≠ k) (v : Wire) (m : List (Nat × Wire)) :
    mGet (mInsert k v m) k' = mGet m k' := by
  simp only [mGet, mInsert, List.find?]
  have : ((k, v).1 == k') = false := by simp [h.symm]
  rw [this]

theorem mGet_cons (p : Nat × Wire) (m : List (Nat × Wire)) (k : Nat) :
    mGet (p :: m) k = if p.1 = k then some p.2 else mGet m k := by
  by_cases hp : p.1 = k
  · rw [if_pos hp]
    unfold mGet
    rw [List.find?_cons_of_pos _ (by simpa using hp)]
    rfl
  · rw [if_neg hp]
    unfold mGet
    rw [List.find?_cons_of_neg _ (by simpa using hp)]

theorem mRemove_cons (k : Nat) (p : Nat × Wire) (m : List (Nat × Wire)) :
    mRemove k (p :: m) = if p.1 = k then mRemove k m else p :: mRemove k m := by
  by_cases hp : p.1 = k
  · rw [if_pos hp]
    unfold mRemove
    rw [List.filter_cons_of_neg (by simpa using hp)]
  · rw [if_neg hp]
    unfold mRemove
    rw [List.filter_cons_of_pos (by simpa using hp)]

theorem mGet_mRemove_self (k : Nat) (m : List (Nat × Wire)) :
    mGet (mRemove k m) k = none := by
  induction m with
  | nil => rfl
  | cons p m ih =>
    rw [mRemove_cons]
    by_cases hp : p.1 = k
    · rw [if_pos hp]; exact ih
    · rw [if_neg hp, mGet_cons, if_neg hp]; exact ih

theorem mGet_mRemove_ne {k k' : Nat} (h : k' ≠ k) (m : List (Nat × Wire)) :
    mGet (mRemove k m) k' = mGet m k' := by
  induction m with
  | nil => rfl
  | cons p m ih =>
    rw [mRemove_cons, mGet_cons]
    by_cases hp : p.1 = k
    · rw [if_pos hp, if_neg (by rw [hp]; exact fun he => h he.symm)]
      exact ih
    · rw [if_neg hp, mGet_cons]
      by_cases hq : p.1 = k'
      · rw [if_pos hq, if_pos hq]
      · rw [if_neg hq, if_neg hq]; exact ih

theorem mGet_mem {m : List (Nat × Wire)} {k : Nat} {w : Wire}
    (h : mGet m k = some w) : (k, w) ∈ m := by
  unfold mGet at h
  cases hf : m.find? (fun p => p.1 == k) with
  | none => rw [hf] at h; exact absurd h (by simp)
  | some p =>
    rw [hf] at h
    have hm := List.mem_of_find?_eq_some hf
    have hp := List.find?_some hf
    simp only [beq_iff_eq] at hp
    obtain ⟨p1, p2⟩ := p
    simp only [Option.map] at h
    simp only at hp
    cases h
    subst hp
    exact hm

/-! ### HUGR graph lemmas -/

/-- Models `h'` extends `h` by appending nodes. -/
def Hugr.ExtendsH (h h' : Hugr) : Prop := ∃ l, h'.nodes = h.nodes ++ l

theorem extendsH_rfl (h : Hugr) : h.ExtendsH h := ⟨[], by simp⟩

theorem extendsH_trans {h1 h2 h3 : Hugr} (a : h1.ExtendsH h2) (b : h2.ExtendsH h3) :
    h1.ExtendsH h3 := by
  obtain ⟨l1, e1⟩ := a; obtain ⟨l2, e2⟩ := b
  exact ⟨l1 ++ l2, by rw [e2, e1, List.append_assoc]⟩

theorem getNode_mono {h h' : Hugr} (e : h.ExtendsH h') {i : Nat} {n : Node}
    (hn : h.getNode i = some n) : h'.getNode i = some n := by
  obtain ⟨l, hl⟩ := e
  unfold Hugr.getNode at *
  rw [hl, List.find?_append, hn]
  rfl

theorem loadTargetType_eq_none {h : Hugr} {cid : Nat}
    (hc : h.getNode cid = none) : loadTargetType h cid = none := by
  unfold loadTargetType; rw [hc]

theorem loadTargetType_eq_some {h : Hugr} {cid : Nat} {cn : Node}
    (hc : h.getNode cid = some cn) :
    loadTargetType h cid =
      (match cn.operation with
       | Operation.Const v => some (constType v)
       | _ => none) := by
  unfold loadTargetType; rw [hc]

theorem portType_eq_none {h : Hugr} {w : Wire}
    (hg : h.getNode w.node_id = none) : h.portType w = none := by
  unfold Hugr.portType; rw [hg]

theorem portType_eq_some {h : Hugr} {w : Wire} {n : Node}
    (hg : h.getNode w.node_id = some n) :
    h.portType w = opPortType h n.operation w.port := by
  unfold Hugr.portType; rw [hg]

theorem loadTargetType_mono {h h' : Hugr} (e : h.ExtendsH h') {cid : Nat} {t : HugrType}
    (ht : loadTargetType h cid = some t) : loadTargetType h' cid = some t := by
  cases hc : h.getNode cid with
  | none => rw [loadTargetType_eq_none hc] at ht; exact absurd ht (by simp)
  | some cn =>
    rw [loadTargetType_eq_some hc] at ht
    rw [loadTargetType_eq_some (getNode_mono e hc)]
    exact ht

theorem opPortType_mono {h h' : Hugr} (e : h.ExtendsH h') {op : Operation} {port : Nat}
    {t : HugrType} (ht : opPortType h op port = some t) : opPortType h' op port = some t := by
  cases op with
  | Input types => exact ht
  | Custom name sig ext args => exact ht
  | LoadConst cid =>
    simp only [opPortType] at ht ⊢
    by_cases hp : port = 0
    · rw [if_pos hp] at ht ⊢
      exact loadTargetType_mono e ht
    · rw [if_neg hp] at ht; exact absurd ht (by simp)
  | Output types => exact absurd ht (by simp [opPortType])
  | Const v => exact absurd ht (by simp [opPortType])
  | DFG sig => exact absurd ht (by simp [opPortType])

theorem portType_mono {h h' : Hugr} (e : h.ExtendsH h') {w : Wire} {t : HugrType}
    (ht : h.portType w = some t) : h'.portType w = some t := by
  cases hg : h.getNode w.node_id with
  | none => rw [portType_eq_none hg] at ht; exact absurd ht (by simp)
  | some n =>
    rw [portType_eq_some hg] at ht
    rw [portType_eq_some (getNode_mono e hg)]
    exact opPortType_mono e ht

/-- Well-formedness of the id supply: every stored node id is below
`next_node_id` (always true of built graphs, since ids are assigned from
the monotone counter). -/
def HWF (h : Hugr) : Prop := ∀ n ∈ h.nodes, n.id < h.next_node_id

theorem find?_id_eq_none {l : List Node} {i : Nat} (hlt : ∀ n ∈ l, n.id < i) :
    l.find? (fun n => n.id == i) = none := by
  rw [List.find?_eq_none]
  intro x hx
  simp only [beq_iff_eq]
  intro he
  exact absurd (he ▸ hlt x hx) (lt_irrefl _)

theorem getNode_fresh {h h' : Hugr} (wf : HWF h) {node : Node}
    (hid : node.id = h.next_node_id) (he : h'.nodes = h.nodes ++ [node]) :
    h'.getNode node.id = some node := by
  unfold Hugr.getNode
  rw [he, List.find?_append, find?_id_eq_none (fun n hn => hid ▸ wf n hn)]
  simp [List.find?]

/-! ### Builder step lemmas -/

theorem add_op_fst (b : DfgBuilder) (op : Operation) (ins : List Wire) :
    (b.add_op op ins).1.hugr.nodes = b.hugr.nodes ++ [(b.add_op op ins).2] := rfl

theorem add_op_snd (b : DfgBuilder) (op : Operation) (ins : List Wire) :
    (b.add_op op ins).2 = ⟨b.hugr.next_node_id, op, ins,
      (List.range op.numOutputs).map (fun port => Wire.new b.hugr.next_node_id port)⟩ := rfl

theorem add_op_next (b : DfgBuilder) (op : Operation) (ins : List Wire) :
    (b.add_op op ins).1.hugr.next_node_id = b.hugr.next_node_id + 1 := rfl

theorem add_op_extends (b : DfgBuilder) (op : Operation) (ins : List Wire) :
    b.hugr.ExtendsH (b.add_op op ins).1.hugr :=
  ⟨[(b.add_op op ins).2], rfl⟩

theorem HWF_add_op {b : DfgBuilder} (wf : HWF b.hugr) (op : Operation) (ins : List Wire) :
    HWF (b.add_op op ins).1.hugr := by
  intro n hn
  rw [add_op_fst] at hn
  rw [add_op_next]
  rcases List.mem_append.1 hn with hm | hm
  · exact lt_trans (wf n hm) (Nat.lt_succ_self _)
  · rw [List.mem_singleton] at hm
    subst hm
    exact Nat.lt_succ_self _

theorem getNode_add_op {b : DfgBuilder} (wf : HWF b.hugr) (op : Operation) (ins : List Wire) :
    (b.add_op op ins).1.hugr.getNode (b.add_op op ins).2.id = some (b.add_op op ins).2 :=
  getNode_fresh wf rfl (add_op_fst b op ins)

theorem portType_add_custom {b : DfgBuilder} (wf : HWF b.hugr) (name : String)
    (sig : FunctionType) (ext : String) (args : List ℚ) (ins : List Wire) (i : Nat) :
    (b.add_op (Operation.Custom name sig ext args) ins).1.hugr.portType
      ((b.add_op (Operation.Custom name sig ext args) ins).2.out i) = sig.outputs[i]? := by
  rw [portType_eq_some (getNode_add_op wf (Operation.Custom name sig ext args) ins)]
  rfl

theorem load_false_nodes (s : ActiveConverter) :
    (load_false s).1.dfg.hugr.nodes = s.dfg.hugr.nodes ++
      [⟨s.dfg.hugr.next_node_id, Operation.Const (ConstValue.Bool false), [], []⟩,
       ⟨s.dfg.hugr.next_node_id + 1, Operation.LoadConst s.dfg.hugr.next_node_id, [],
        [Wire.new (s.dfg.hugr.next_node_id + 1) 0]⟩] := by
  show s.dfg.hugr.nodes ++ _ ++ _ = _
  rw [List.append_assoc]
  rfl

theorem load_false_wire (s : ActiveConverter) :
    (load_false s).2 = Wire.new (s.dfg.hugr.next_node_id + 1) 0 := rfl

theorem load_false_next (s : ActiveConverter) :
    (load_false s).1.dfg.hugr.next_node_id = s.dfg.hugr.next_node_id + 2 := rfl

theorem load_false_qw (s : ActiveConverter) :
    (load_false s).1.qubit_wires = s.qubit_wires := rfl

theorem load_false_cw (s : ActiveConverter) :
    (load_false s).1.classical_wires = s.classical_wires := rfl

theorem load_false_extends (s : ActiveConverter) :
    s.dfg.hugr.ExtendsH (load_false s).1.dfg.hugr :=
  ⟨_, load_false_nodes s⟩

theorem HWF_load_false {s : ActiveConverter} (wf : HWF s.dfg.hugr) :
    HWF (load_false s).1.dfg.hugr := by
  intro n hn
  rw [load_false_nodes] at hn
  rw [load_false_next]
  rcases List.mem_append.1 hn with hm | hm
  · exact lt_trans (wf n hm) (by omega)
  · simp only [List.mem_cons, List.not_mem_nil, or_false] at hm
    rcases hm with rfl | rfl
    · show s.dfg.hugr.next_node_id < s.dfg.hugr.next_node_id + 2
      omega
    · show s.dfg.hugr.next_node_id + 1 < s.dfg.hugr.next_node_id + 2
      omega

theorem load_false_portType {s : ActiveConverter} (wf : HWF s.dfg.hugr) :
    (load_false s).1.dfg.hugr.portType (load_false s).2 = some HugrType.Bool := by
  have hln : (load_false s).1.dfg.hugr.getNode (s.dfg.hugr.next_node_id + 1) =
      some ⟨s.dfg.hugr.next_node_id + 1, Operation.LoadConst s.dfg.hugr.next_node_id, [],
        [Wire.new (s.dfg.hugr.next_node_id + 1) 0]⟩ := by
    unfold Hugr.getNode
    rw [load_false_nodes, List.find?_append,
      find?_id_eq_none (fun n hn => lt_trans (wf n hn) (Nat.lt_succ_self _))]
    have h1 : (s.dfg.hugr.next_node_id == s.dfg.hugr.next_node_id + 1) = false := by simp
    simp [List.find?, h1]
  have hcn : (load_false s).1.dfg.hugr.getNode s.dfg.hugr.next_node_id =
      some ⟨s.dfg.hugr.next_node_id, Operation.Const (ConstValue.Bool false), [], []⟩ := by
    unfold Hugr.getNode
    rw [load_false_nodes, List.find?_append, find?_id_eq_none wf]
    simp [List.find?]
  rw [load_false_wire]
  rw [portType_eq_some hln]
  show (if (0 : Nat) = 0 then
      loadTargetType (load_false s).1.dfg.hugr s.dfg.hugr.next_node_id else none) =
    some HugrType.Bool
  rw [if_pos rfl, loadTargetType_eq_some hcn]
  rfl

/-! ### Translator-state invariants -/

/-- Rotation-argument soundness of an operation: a custom `Rx`/`Ry`/`Rz`
carries a first argument of magnitude strictly above the elision
threshold. -/
def RotOk : Operation → Prop
  | Operation.Custom name _ _ args =>
      (name = "Rx" ∨ name = "Ry" ∨ name = "Rz") → ∀ a ∈ args.head?, rustEps < |a|
  | _ => True

/-- The operation is not an `Output`. -/
def NotOut : Operation → Prop
  | Operation.Output _ => False
  | _ => True

def GoodOp (op : Operation) : Prop := NotOut op ∧ RotOk op

def GoodNode (n : Node) : Prop := GoodOp n.operation

/-- Wire-typing invariant of the translator state: every bound qubit wire
produces `Qubit`, every bound classical wire produces `Bool`. -/
def TInv (s : ActiveConverter) : Prop :=
  (∀ k w, mGet s.qubit_wires k = some w → s.dfg.hugr.portType w = some HugrType.Qubit) ∧
  (∀ k w, mGet s.classical_wires k = some w → s.dfg.hugr.portType w = some HugrType.Bool)

/-- Everything one translator step preserves: the graph is extended by
good (non-`Output`, rotation-sound) nodes, id well-formedness is kept,
and the wire-typing invariant is kept. -/
structure StepOK (s s' : ActiveConverter) : Prop where
  ext : s.dfg.hugr.ExtendsH s'.dfg.hugr
  good : ∀ n ∈ s'.dfg.hugr.nodes, n ∈ s.dfg.hugr.nodes ∨ GoodNode n
  wf : HWF s.dfg.hugr → HWF s'.dfg.hugr
  typ : HWF s.dfg.hugr → TInv s → TInv s'

theorem stepOK_refl (s : ActiveConverter) : StepOK s s :=
  ⟨extendsH_rfl _, fun n hn => Or.inl hn, id, fun _ => id⟩

theorem stepOK_trans {s1 s2 s3 : ActiveConverter} (a : StepOK s1 s2) (b : StepOK s2 s3) :
    StepOK s1 s3 := by
  refine ⟨extendsH_trans a.ext b.ext, ?_, fun wf => b.wf (a.wf wf), ?_⟩
  · intro n hn
    rcases b.good n hn with hm | hg
    · exact a.good n hm
    · exact Or.inr hg
  · intro wf ti
    exact b.typ (a.wf wf) (a.typ wf ti)

theorem rotOk_custom_ne {name : String} {sig : FunctionType} {ext : String} {args : List ℚ}
    (h : name ≠ "Rx" ∧ name ≠ "Ry" ∧ name ≠ "Rz") :
    RotOk (Operation.Custom name sig ext args) := by
  intro hc
  rcases hc with hc | hc | hc
  · exact absurd hc h.1
  · exact absurd hc h.2.1
  · exact absurd hc h.2.2

theorem notOut_custom {name : String} {sig : FunctionType} {ext : String} {args : List ℚ} :
    NotOut (Operation.Custom name sig ext args) := trivial

theorem goodOp_custom_ne {name : String} {sig : FunctionType} {ext : String} {args : List ℚ}
    (h : name ≠ "Rx" ∧ name ≠ "Ry" ∧ name ≠ "Rz") :
    GoodOp (Operation.Custom name sig ext args) :=
  ⟨notOut_custom, rotOk_custom_ne h⟩

theorem goodOp_rot {name : String} {sig : FunctionType} {ext : String} {a : ℚ}
    (h : rustEps < |a|) : GoodOp (Operation.Custom name sig ext [a]) := by
  refine ⟨notOut_custom, ?_⟩
  intro _ b hb
  simp only [List.head?, Option.mem_def, Option.some.injEq] at hb
  subst hb
  exact h

/-- A step that only runs `add_op` with a good operation, keeping the wire
maps: it satisfies `StepOK`. -/
theorem stepOK_add_op_dfg {s : ActiveConverter} {op : Operation} {ins : List Wire}
    (hg : GoodOp op) :
    StepOK s ⟨(s.dfg.add_op op ins).1, s.qubit_wires, s.classical_wires, s.node_order⟩ := by
  refine ⟨add_op_extends _ _ _, ?_, fun wf => HWF_add_op wf _ _, ?_⟩
  · intro n hn
    rw [add_op_fst] at hn
    rcases List.mem_append.1 hn with hm | hm
    · exact Or.inl hm
    · rw [List.mem_singleton] at hm
      subst hm
      exact Or.inr hg
  · intro _ ti
    refine ⟨fun k w hw => ?_, fun k w hw => ?_⟩
    · exact portType_mono (add_op_extends _ _ _) (ti.1 k w hw)
    · exact portType_mono (add_op_extends _ _ _) (ti.2 k w hw)

/-- Models `load_false` keeps the maps and appends two good nodes. -/
theorem stepOK_load_false (s : ActiveConverter) : StepOK s (load_false s).1 := by
  refine ⟨load_false_extends _, ?_, fun wf => HWF_load_false wf, ?_⟩
  · intro n hn
    rw [load_false_nodes] at hn
    rcases List.mem_append.1 hn with hm | hm
    · exact Or.inl hm
    · simp only [List.mem_cons, List.not_mem_nil, or_false] at hm
      rcases hm with rfl | rfl
      · exact Or.inr ⟨trivial, trivial⟩
      · exact Or.inr ⟨trivial, trivial⟩
  · intro _ ti
    refine ⟨fun k w hw => ?_, fun k w hw => ?_⟩
    · exact portType_mono (load_false_extends _) (ti.1 k w (by rwa [load_false_qw] at hw))
    · exact portType_mono (load_false_extends _) (ti.2 k w (by rwa [load_false_cw] at hw))

/-- Models `process_prepare` satisfies `StepOK`. -/
theorem stepOK_prepare (node : Nat) (s : ActiveConverter) :
    StepOK s (process_prepare node s) := by
  unfold process_prepare
  set op := Operation.Custom "PrepareQubit" (FunctionType.new [] [HugrType.Qubit]) quantumExt []
    with hop
  have hgood : GoodOp op := goodOp_custom_ne (by refine ⟨?_, ?_, ?_⟩ <;> decide)
  have base :
      StepOK s ⟨(s.dfg.add_op op []).1, s.qubit_wires, s.classical_wires, s.node_order⟩ :=
    stepOK_add_op_dfg hgood
  refine ⟨base.ext, base.good, base.wf, ?_⟩
  intro wf ti
  have ti' := base.typ wf ti
  refine ⟨fun k w hw => ?_, ti'.2⟩
  by_cases hk : k = node
  · subst hk
    rw [mGet_mInsert_self] at hw
    cases hw
    have := portType_add_custom (b := s.dfg) wf "PrepareQubit"
      (FunctionType.new [] [HugrType.Qubit]) quantumExt [] [] 0
    simpa using this
  · rw [mGet_mInsert_ne hk] at hw
    exact ti'.1 k w hw

/-- Models `process_entangle` satisfies `StepOK`. -/
theorem stepOK_entangle (nodes : Nat × Nat) (s : ActiveConverter) :
    StepOK s (process_entangle nodes s) := by
  unfold process_entangle
  cases h1 : mGet s.qubit_wires nodes.1 with
  | none => exact stepOK_refl s
  | some q1 =>
    cases h2 : mGet s.qubit_wires nodes.2 with
    | none => exact stepOK_refl s
    | some q2 =>
      have hgood : GoodOp create_cz_gate := goodOp_custom_ne (by refine ⟨?_, ?_, ?_⟩ <;> decide)
      have base :
          StepOK s ⟨(s.dfg.add_op create_cz_gate [q1, q2]).1, s.qubit_wires,
            s.classical_wires, s.node_order⟩ :=
        stepOK_add_op_dfg hgood
      refine ⟨base.ext, base.good, base.wf, ?_⟩
      intro wf ti
      have ti' := base.typ wf ti
      refine ⟨fun k w hw => ?_, ti'.2⟩
      by_cases hk2 : k = nodes.2
      · subst hk2
        rw [mGet_mInsert_self] at hw
        cases hw
        have := portType_add_custom (b := s.dfg) wf "CZ"
          (FunctionType.new [HugrType.Qubit, HugrType.Qubit] [HugrType.Qubit, HugrType.Qubit])
          quantumExt [] [q1, q2] 1
        simpa using this
      · rw [mGet_mInsert_ne hk2] at hw
        by_cases hk1 : k = nodes.1
        · subst hk1
          rw [mGet_mInsert_self] at hw
          cases hw
          have := portType_add_custom (b := s.dfg) wf "CZ"
            (FunctionType.new [HugrType.Qubit, HugrType.Qubit] [HugrType.Qubit, HugrType.Qubit])
            quantumExt [] [q1, q2] 0
          simpa using this
        · rw [mGet_mInsert_ne hk1] at hw
          exact ti'.1 k w hw

/-- Core of the measure step: after any basis-change prefix (given by a
`StepOK` into builder `b1`), adding the `Measure` node and moving the
identifier from `qubit_wires` to `classical_wires` satisfies `StepOK`. -/
theorem stepOK_measure_core {s : ActiveConverter} {node : Nat} {b1 : DfgBuilder} (w1 : Wire)
    (hb : StepOK s ⟨b1, s.qubit_wires, s.classical_wires, s.node_order⟩) :
    StepOK s ⟨(b1.add_op create_measure_op [w1]).1,
      mRemove node s.qubit_wires,
      mInsert node ((b1.add_op create_measure_op [w1]).2.out 0) s.classical_wires,
      s.node_order⟩ := by
  have good_meas : GoodOp create_measure_op := goodOp_custom_ne (by refine ⟨?_, ?_, ?_⟩ <;> decide)
  have mid : StepOK s ⟨(b1.add_op create_measure_op [w1]).1, s.qubit_wires,
      s.classical_wires, s.node_order⟩ :=
    stepOK_trans hb (stepOK_add_op_dfg (s := ⟨b1, s.qubit_wires, s.classical_wires, s.node_order⟩)
      good_meas)
  refine ⟨mid.ext, mid.good, mid.wf, ?_⟩
  intro wf ti
  have ti' := mid.typ wf ti
  have wf1 : HWF b1.hugr := hb.wf wf
  refine ⟨fun k w hw => ?_, fun k w hw => ?_⟩
  · by_cases hk : k = node
    · subst hk
      rw [mGet_mRemove_self] at hw
      exact absurd hw (by simp)
    · rw [mGet_mRemove_ne hk] at hw
      exact ti'.1 k w hw
  · by_cases hk : k = node
    · subst hk
      rw [mGet_mInsert_self] at hw
      cases hw
      have := portType_add_custom (b := b1) wf1 "Measure"
        (FunctionType.new [HugrType.Qubit] [HugrType.Bool]) quantumExt [] [w1] 0
      simpa using this
    · rw [mGet_mInsert_ne hk] at hw
      exact ti'.2 k w hw

/-- Models `process_measure` satisfies `StepOK`. -/
theorem stepOK_measure (node : Nat) (plane : Plane) (angle : ℚ) (s : ActiveConverter) :
    StepOK s (process_measure node plane angle s) := by
  unfold process_measure
  cases hq : mGet s.qubit_wires node with
  | none => exact stepOK_refl s
  | some qubit_wire =>
    cases plane with
    | XY =>
      by_cases hlt : |angle| > rustEps
      · simp only [if_pos hlt]
        refine stepOK_measure_core _ ?_
        have h1 : StepOK s ⟨(s.dfg.add_op (create_rz_gate (-angle)) [qubit_wire]).1,
            s.qubit_wires, s.classical_wires, s.node_order⟩ :=
          @stepOK_add_op_dfg s (create_rz_gate (-angle)) [qubit_wire]
            (goodOp_rot (by rwa [abs_neg]))
        have h2 := @stepOK_add_op_dfg
          ⟨(s.dfg.add_op (create_rz_gate (-angle)) [qubit_wire]).1,
            s.qubit_wires, s.classical_wires, s.node_order⟩
          create_h_gate
          [(s.dfg.add_op (create_rz_gate (-angle)) [qubit_wire]).2.out 0]
          (goodOp_custom_ne (by refine ⟨?_, ?_, ?_⟩ <;> decide))
        exact stepOK_trans h1 h2
      · simp only [if_neg hlt]
        refine stepOK_measure_core _ ?_
        exact @stepOK_add_op_dfg s create_h_gate [qubit_wire]
          (goodOp_custom_ne (by refine ⟨?_, ?_, ?_⟩ <;> decide))
    | YZ =>
      by_cases hlt : |angle| > rustEps
      · simp only [if_pos hlt]
        refine stepOK_measure_core _ ?_
        exact @stepOK_add_op_dfg s (create_rx_gate (-angle)) [qubit_wire]
          (goodOp_rot (by rwa [abs_neg]))
      · simp only [if_neg hlt]
        exact stepOK_measure_core _ (stepOK_refl s)
    | XZ =>
      by_cases hlt : |angle| > rustEps
      · simp only [if_pos hlt]
        refine stepOK_measure_core _ ?_
        exact @stepOK_add_op_dfg s (create_ry_gate angle) [qubit_wire]
          (goodOp_rot hlt)
      · simp only [if_neg hlt]
        exact stepOK_measure_core _ (stepOK_refl s)

/-- The XOR-reduction fold satisfies `StepOK` and leaves the maps alone. -/
theorem stepOK_xorFold (rest : List Nat) :
    ∀ (s : ActiveConverter) (w0 : Wire), StepOK s (rest.foldl xorStep (s, w0)).1 := by
  induction rest with
  | nil => intro s w0; exact stepOK_refl s
  | cons d rest ih =>
    intro s w0
    rw [List.foldl_cons]
    cases hm : mGet s.classical_wires d with
    | none =>
      have hstep : xorStep (s, w0) d = (s, w0) := by simp only [xorStep, hm]
      rw [hstep]
      exact ih s w0
    | some wire =>
      have hstep : xorStep (s, w0) d =
          (⟨(s.dfg.add_op xor_op [w0, wire]).1, s.qubit_wires, s.classical_wires, s.node_order⟩,
           (s.dfg.add_op xor_op [w0, wire]).2.out 0) := by
        simp only [xorStep, hm]
      rw [hstep]
      exact stepOK_trans
        (stepOK_add_op_dfg (goodOp_custom_ne (by refine ⟨?_, ?_, ?_⟩ <;> decide))) (ih _ _)

/-- Models `compute_xor_of_measurements` satisfies `StepOK`. -/
theorem stepOK_compute_xor (domain : List Nat) (s : ActiveConverter) :
    StepOK s (compute_xor_of_measurements domain s).1 := by
  unfold compute_xor_of_measurements
  cases hD : dedupConsecutive (sortAsc domain) with
  | nil => exact stepOK_load_false s
  | cons d0 rest =>
    show StepOK s (match mGet s.classical_wires d0 with
      | some result => rest.foldl xorStep (s, result)
      | none => load_false s).1
    cases hm : mGet s.classical_wires d0 with
    | some result => exact stepOK_xorFold rest s result
    | none => exact stepOK_load_false s

/-- Models `process_pauli_x` satisfies `StepOK`. -/
theorem stepOK_pauli_x (node : Nat) (domain : List Nat) (s : ActiveConverter) :
    StepOK s (process_pauli_x node domain s) := by
  unfold process_pauli_x
  cases hq : mGet s.qubit_wires node with
  | none => exact stepOK_refl s
  | some qubit_wire =>
    have st1 : StepOK s (compute_xor_of_measurements domain s).1 := stepOK_compute_xor domain s
    have st2 : StepOK (compute_xor_of_measurements domain s).1
        (apply_conditional_gate qubit_wire (compute_xor_of_measurements domain s).2 "X"
          (compute_xor_of_measurements domain s).1).1 :=
      stepOK_add_op_dfg (goodOp_custom_ne (by refine ⟨?_, ?_, ?_⟩ <;> decide))
    have st12 := stepOK_trans st1 st2
    refine ⟨st12.ext, st12.good, st12.wf, ?_⟩
    intro wf ti
    have ti' := st12.typ wf ti
    refine ⟨fun k w hw => ?_, ti'.2⟩
    by_cases hk : k = node
    · subst hk
      rw [mGet_mInsert_self] at hw
      cases hw
      have := portType_add_custom (b := (compute_xor_of_measurements domain s).1.dfg)
        (st1.wf wf) "ConditionalX"
        (FunctionType.new [HugrType.Bool, HugrType.Qubit] [HugrType.Qubit]) quantumExt []
        [(compute_xor_of_measurements domain s).2, qubit_wire] 0
      simpa using this
    · rw [mGet_mInsert_ne hk] at hw
      exact ti'.1 k w hw

/-- Models `process_pauli_z` satisfies `StepOK`. -/
theorem stepOK_pauli_z (node : Nat) (domain : List Nat) (s : ActiveConverter) :
    StepOK s (process_pauli_z node domain s) := by
  unfold process_pauli_z
  cases hq : mGet s.qubit_wires node with
  | none => exact stepOK_refl s
  | some qubit_wire =>
    have st1 : StepOK s (compute_xor_of_measurements domain s).1 := stepOK_compute_xor domain s
    have st2 : StepOK (compute_xor_of_measurements domain s).1
        (apply_conditional_gate qubit_wire (compute_xor_of_measurements domain s).2 "Z"
          (compute_xor_of_measurements domain s).1).1 :=
      stepOK_add_op_dfg (goodOp_custom_ne (by refine ⟨?_, ?_, ?_⟩ <;> decide))
    have st12 := stepOK_trans st1 st2
    refine ⟨st12.ext, st12.good, st12.wf, ?_⟩
    intro wf ti
    have ti' := st12.typ wf ti
    refine ⟨fun k w hw => ?_, ti'.2⟩
    by_cases hk : k = node
    · subst hk
      rw [mGet_mInsert_self] at hw
      cases hw
      have := portType_add_custom (b := (compute_xor_of_measurements domain s).1.dfg)
        (st1.wf wf) "ConditionalZ"
        (FunctionType.new [HugrType.Bool, HugrType.Qubit] [HugrType.Qubit]) quantumExt []
        [(compute_xor_of_measurements domain s).2, qubit_wire] 0
      simpa using this
    · rw [mGet_mInsert_ne hk] at hw
      exact ti'.1 k w hw

theorem cliffordOp_spec {g : CliffordGate} {op : Operation} (h : cliffordOp g = some op) :
    ∃ name, op = Operation.Custom name (FunctionType.new [HugrType.Qubit] [HugrType.Qubit])
        quantumExt [] ∧ name ≠ "Rx" ∧ name ≠ "Ry" ∧ name ≠ "Rz" := by
  cases g <;>
    simp only [cliffordOp, create_h_gate, create_s_gate, create_x_gate, create_y_gate,
      create_z_gate, create_sdg_gate, Option.some.injEq, reduceCtorEq] at h
  case H => exact ⟨"H", h.symm, by decide, by decide, by decide⟩
  case S => exact ⟨"S", h.symm, by decide, by decide, by decide⟩
  case X => exact ⟨"X", h.symm, by decide, by decide, by decide⟩
  case Y => exact ⟨"Y", h.symm, by decide, by decide, by decide⟩
  case Z => exact ⟨"Z", h.symm, by decide, by decide, by decide⟩
  case SDG => exact ⟨"Sdg", h.symm, by decide, by decide, by decide⟩

/-- The Clifford fold satisfies `StepOK` and keeps the threaded wire
`Qubit`-typed. -/
theorem stepOK_cliffordFold (gates : List CliffordGate) :
    ∀ (s : ActiveConverter) (w0 : Wire),
      StepOK s (gates.foldl cliffordStep (s, w0)).1 ∧
      (HWF s.dfg.hugr → s.dfg.hugr.portType w0 = some HugrType.Qubit →
        (gates.foldl cliffordStep (s, w0)).1.dfg.hugr.portType
          ((gates.foldl cliffordStep (s, w0)).2) = some HugrType.Qubit) := by
  induction gates with
  | nil => exact fun s w0 => ⟨stepOK_refl s, fun _ h => h⟩
  | cons g gates ih =>
    intro s w0
    rw [List.foldl_cons]
    cases hco : cliffordOp g with
    | none =>
      have hstep : cliffordStep (s, w0) g = (s, w0) := by simp only [cliffordStep, hco]
      rw [hstep]
      exact ih s w0
    | some op =>
      obtain ⟨name, rfl, hn1, hn2, hn3⟩ := cliffordOp_spec hco
      have hstep : cliffordStep (s, w0) g =
          (⟨(s.dfg.add_op (Operation.Custom name
              (FunctionType.new [HugrType.Qubit] [HugrType.Qubit]) quantumExt []) [w0]).1,
            s.qubit_wires, s.classical_wires, s.node_order⟩,
           (s.dfg.add_op (Operation.Custom name
              (FunctionType.new [HugrType.Qubit] [HugrType.Qubit]) quantumExt []) [w0]).2.out 0) := by
        simp only [cliffordStep, hco]
      rw [hstep]
      have hg : GoodOp (Operation.Custom name
          (FunctionType.new [HugrType.Qubit] [HugrType.Qubit]) quantumExt []) :=
        goodOp_custom_ne ⟨hn1, hn2, hn3⟩
      obtain ⟨ihs, iht⟩ := ih
        ⟨(s.dfg.add_op (Operation.Custom name
            (FunctionType.new [HugrType.Qubit] [HugrType.Qubit]) quantumExt []) [w0]).1,
          s.qubit_wires, s.classical_wires, s.node_order⟩
        ((s.dfg.add_op (Operation.Custom name
            (FunctionType.new [HugrType.Qubit] [HugrType.Qubit]) quantumExt []) [w0]).2.out 0)
      refine ⟨stepOK_trans (stepOK_add_op_dfg hg) ihs, ?_⟩
      intro wf _
      refine iht (HWF_add_op wf _ _) ?_
      have := portType_add_custom (b := s.dfg) wf name
        (FunctionType.new [HugrType.Qubit] [HugrType.Qubit]) quantumExt [] [w0] 0
      simpa using this

/-- Models `process_clifford` satisfies `StepOK`. -/
theorem stepOK_clifford (node : Nat) (gates : List CliffordGate) (s : ActiveConverter) :
    StepOK s (process_clifford node gates s) := by
  unfold process_clifford
  cases hq : mGet s.qubit_wires node with
  | none => exact stepOK_refl s
  | some qubit_wire =>
    obtain ⟨st, hty⟩ := stepOK_cliffordFold gates s qubit_wire
    refine ⟨st.ext, st.good, st.wf, ?_⟩
    intro wf ti
    have ti' := st.typ wf ti
    refine ⟨fun k w hw => ?_, ti'.2⟩
    by_cases hk : k = node
    · subst hk
      rw [mGet_mInsert_self] at hw
      cases hw
      exact hty wf (ti.1 _ _ hq)
    · rw [mGet_mInsert_ne hk] at hw
      exact ti'.1 k w hw

/-- Every command step satisfies `StepOK`. -/
theorem stepOK_command (cmd : Command) (s : ActiveConverter) :
    StepOK s (process_command cmd s) := by
  cases cmd with
  | N node => exact stepOK_prepare node s
  | E nodes => exact stepOK_entangle nodes s
  | M node plane angle => exact stepOK_measure node plane angle s
  | X node domain => exact stepOK_pauli_x node domain s
  | Z node domain => exact stepOK_pauli_z node domain s
  | C node gates => exact stepOK_clifford node gates s

/-- The whole command loop satisfies `StepOK`. -/
theorem stepOK_commands (cmds : List Command) :
    ∀ s : ActiveConverter, StepOK s (cmds.foldl (fun s cmd => process_command cmd s) s) := by
  induction cmds with
  | nil => exact fun s => stepOK_refl s
  | cons cmd cmds ih =>
    intro s
    rw [List.foldl_cons]
    exact stepOK_trans (stepOK_command cmd s) (ih _)

/-! ### Initial state -/

theorem sortAsc_mem {l : List Nat} {x : Nat} : x ∈ sortAsc l ↔ x ∈ l :=
  List.mem_insertionSort _

theorem sortAsc_length (l : List Nat) : (sortAsc l).length = l.length :=
  List.length_insertionSort _ _

theorem sortAsc_sorted (l : List Nat) : List.Sorted (· ≤ ·) (sortAsc l) :=
  List.sorted_insertionSort _ _

theorem new_builder_nodes (tys : List HugrType) :
    (DfgBuilder.new tys).hugr.nodes = [⟨0, Operation.Input tys, [], []⟩] := rfl

theorem new_builder_next (tys : List HugrType) :
    (DfgBuilder.new tys).hugr.next_node_id = 1 := rfl

theorem new_builder_HWF (tys : List HugrType) : HWF (DfgBuilder.new tys).hugr := by
  intro n hn
  rw [new_builder_nodes] at hn
  rw [List.mem_singleton] at hn
  subst hn
  rw [new_builder_next]
  exact Nat.zero_lt_one

theorem foldl_mInsert_mGet (ps : List (Nat × Wire)) :
    ∀ (m : List (Nat × Wire)) (k : Nat) (w : Wire),
      mGet (ps.foldl (fun acc p => mInsert p.1 p.2 acc) m) k = some w →
      (k, w) ∈ ps ∨ mGet m k = some w := by
  induction ps with
  | nil => exact fun m k w h => Or.inr h
  | cons p ps ih =>
    intro m k w h
    rw [List.foldl_cons] at h
    rcases ih _ k w h with hm | hm
    · exact Or.inl (List.mem_cons_of_mem _ hm)
    · by_cases hk : k = p.1
      · subst hk
        rw [mGet_mInsert_self] at hm
        cases hm
        exact Or.inl (by simp)
      · rw [mGet_mInsert_ne hk] at hm
        exact Or.inr hm

theorem portType_new_builder_wire {n : Nat} {w : Wire}
    (hw : w ∈ (DfgBuilder.new (List.replicate n HugrType.Qubit)).input_wires) :
    (DfgBuilder.new (List.replicate n HugrType.Qubit)).hugr.portType w =
      some HugrType.Qubit := by
  simp only [DfgBuilder.new, List.mem_map, List.mem_range] at hw
  obtain ⟨i, hi, rfl⟩ := hw
  have hg : (DfgBuilder.new (List.replicate n HugrType.Qubit)).hugr.getNode 0 =
      some ⟨0, Operation.Input (List.replicate n HugrType.Qubit), [], []⟩ := rfl
  have : (Wire.new 0 i).node_id = 0 := rfl
  rw [show (Wire.new ((Hugr.new.add_node
      (Operation.Input (List.replicate n HugrType.Qubit))).2) i) = Wire.new 0 i from rfl]
  rw [portType_eq_some hg]
  show (List.replicate n HugrType.Qubit)[i]? = some HugrType.Qubit
  rw [List.getElem?_replicate]
  rw [if_pos (by simpa using hi)]

/-- The state reached after the command loop, written without `let`s. -/
theorem processedState_eq (c : GraphixToHugrConverter) (p : Pattern) :
    processedState c p =
      p.commands.foldl (fun s cmd => process_command cmd s)
        ⟨DfgBuilder.new (List.replicate (sortAsc p.input_nodes).length HugrType.Qubit),
         bindInputs (sortAsc p.input_nodes)
           (DfgBuilder.new
             (List.replicate (sortAsc p.input_nodes).length HugrType.Qubit)).input_wires
           c.qubit_wires,
         c.classical_wires, c.node_order⟩ := rfl

/-- The initial state of a conversion started on a fresh converter
satisfies the typing invariant. -/
theorem initial_TInv (p : Pattern) :
    TInv ⟨DfgBuilder.new (List.replicate (sortAsc p.input_nodes).length HugrType.Qubit),
      bindInputs (sortAsc p.input_nodes)
        (DfgBuilder.new
          (List.replicate (sortAsc p.input_nodes).length HugrType.Qubit)).input_wires
        GraphixToHugrConverter.new.qubit_wires,
      GraphixToHugrConverter.new.classical_wires, GraphixToHugrConverter.new.node_order⟩ := by
  constructor
  · intro k w hw
    unfold bindInputs at hw
    rcases foldl_mInsert_mGet _ _ _ _ hw with hm | hm
    · exact portType_new_builder_wire (List.of_mem_zip hm).2
    · exact absurd hm (by simp [GraphixToHugrConverter.new, mGet])
  · intro k w hw
    exact absurd hw (by simp [GraphixToHugrConverter.new, mGet])

/-- A fresh conversion's post-loop state: well-formed, good nodes
(except possibly the `Input` node, which is also not an `Output` and not
a rotation), and correctly typed wire maps. -/
theorem processedState_facts (p : Pattern) :
    HWF (processedState GraphixToHugrConverter.new p).dfg.hugr ∧
    TInv (processedState GraphixToHugrConverter.new p) ∧
    (∀ n ∈ (processedState GraphixToHugrConverter.new p).dfg.hugr.nodes,
      NotOut n.operation ∧ RotOk n.operation) := by
  rw [processedState_eq]
  have st := stepOK_commands p.commands
    ⟨DfgBuilder.new (List.replicate (sortAsc p.input_nodes).length HugrType.Qubit),
     bindInputs (sortAsc p.input_nodes)
       (DfgBuilder.new
         (List.replicate (sortAsc p.input_nodes).length HugrType.Qubit)).input_wires
       GraphixToHugrConverter.new.qubit_wires,
     GraphixToHugrConverter.new.classical_wires, GraphixToHugrConverter.new.node_order⟩
  have hwf0 := new_builder_HWF (List.replicate (sortAsc p.input_nodes).length HugrType.Qubit)
  refine ⟨st.wf hwf0, st.typ hwf0 (initial_TInv p), ?_⟩
  intro n hn
  rcases st.good n hn with hm | hg
  · rw [new_builder_nodes, List.mem_singleton] at hm
    subst hm
    exact ⟨trivial, trivial⟩
  · exact hg

/-! ### Finalization lemmas -/

theorem collect_nil (qw : List (Nat × Wire)) : collectQubitOutputs qw [] = Except.ok [] := rfl

theorem collect_cons_none {qw : List (Nat × Wire)} {o : Nat} (rest : List Nat)
    (hm : mGet qw o = none) : collectQubitOutputs qw (o :: rest) = Except.error o := by
  unfold collectQubitOutputs
  rw [hm]

theorem collect_cons_some {qw : List (Nat × Wire)} {o : Nat} {w : Wire} (rest : List Nat)
    (hm : mGet qw o = some w) :
    collectQubitOutputs qw (o :: rest) =
      (collectQubitOutputs qw rest).map (fun ws => w :: ws) := by
  conv_lhs => unfold collectQubitOutputs
  rw [hm]

theorem collect_error_spec {qw : List (Nat × Wire)} :
    ∀ {outs : List Nat} {id : Nat}, collectQubitOutputs qw outs = Except.error id →
      List.Sorted (· ≤ ·) outs →
      id ∈ outs ∧ mGet qw id = none ∧ ∀ j ∈ outs, mGet qw j = none → id ≤ j := by
  intro outs
  induction outs with
  | nil => intro id h _; exact absurd h (by simp [collect_nil])
  | cons o rest ih =>
    intro id h hs
    cases hm : mGet qw o with
    | none =>
      rw [collect_cons_none rest hm] at h
      cases h
      refine ⟨List.mem_cons_self o rest, hm, ?_⟩
      intro j hj _
      rcases List.mem_cons.1 hj with rfl | hj
      · exact le_refl _
      · exact (List.sorted_cons.1 hs).1 j hj
    | some w =>
      rw [collect_cons_some rest hm] at h
      cases hr : collectQubitOutputs qw rest with
      | error id2 =>
        rw [hr] at h
        cases h
        obtain ⟨h1, h2, h3⟩ := ih hr (List.sorted_cons.1 hs).2
        refine ⟨List.mem_cons_of_mem o h1, h2, ?_⟩
        intro j hj hjn
        rcases List.mem_cons.1 hj with rfl | hj
        · exact absurd hm (by rw [hjn]; simp)
        · exact h3 j hj hjn
      | ok ws =>
        rw [hr] at h
        exact absurd h (by simp [Except.map])

theorem collect_ok_spec {qw : List (Nat × Wire)} :
    ∀ {outs : List Nat} {ws : List Wire}, collectQubitOutputs qw outs = Except.ok ws →
      ws.length = outs.length ∧ (∀ w ∈ ws, ∃ k, mGet qw k = some w) ∧
      ∀ id ∈ outs, mGet qw id ≠ none := by
  intro outs
  induction outs with
  | nil =>
    intro ws h
    rw [collect_nil] at h
    cases h
    exact ⟨rfl, fun w hw => absurd hw (List.not_mem_nil w), fun id hid => absurd hid (List.not_mem_nil id)⟩
  | cons o rest ih =>
    intro ws h
    cases hm : mGet qw o with
    | none => rw [collect_cons_none rest hm] at h; exact absurd h (by simp)
    | some w =>
      rw [collect_cons_some rest hm] at h
      cases hr : collectQubitOutputs qw rest with
      | error id2 => rw [hr] at h; exact absurd h (by simp [Except.map])
      | ok ws2 =>
        rw [hr] at h
        cases h
        obtain ⟨h1, h2, h3⟩ := ih hr
        refine ⟨by simp [h1], ?_, ?_⟩
        · intro w' hw'
          rcases List.mem_cons.1 hw' with rfl | hw'
          · exact ⟨o, hm⟩
          · exact h2 w' hw'
        · intro id hid
          rcases List.mem_cons.1 hid with rfl | hid
          · rw [hm]; simp
          · exact h3 id hid

theorem collect_ok_of_all_bound {qw : List (Nat × Wire)} :
    ∀ {outs : List Nat}, (∀ id ∈ outs, mGet qw id ≠ none) →
      ∃ ws, collectQubitOutputs qw outs = Except.ok ws := by
  intro outs
  induction outs with
  | nil => exact fun _ => ⟨[], collect_nil qw⟩
  | cons o rest ih =>
    intro hb
    cases hm : mGet qw o with
    | none => exact absurd hm (hb o (List.mem_cons_self o rest))
    | some w =>
      obtain ⟨ws, hws⟩ := ih (fun id hid => hb id (List.mem_cons_of_mem o hid))
      exact ⟨w :: ws, by rw [collect_cons_some rest hm, hws]; rfl⟩

/-- The classical-output fold: a `StepOK` step that appends one wire per
measured identifier, each of `Bool` type. -/
theorem classicalFold_spec (meas : List Nat) :
    ∀ (s : ActiveConverter) (acc : List Wire),
      StepOK s (meas.foldl classicalStep (s, acc)).1 ∧
      ∃ tail, (meas.foldl classicalStep (s, acc)).2 = acc ++ tail ∧
        tail.length = meas.length ∧
        (HWF s.dfg.hugr → TInv s →
          ∀ w ∈ tail, (meas.foldl classicalStep (s, acc)).1.dfg.hugr.portType w =
            some HugrType.Bool) := by
  induction meas with
  | nil =>
    intro s acc
    exact ⟨stepOK_refl s, [], by simp, rfl, fun _ _ w hw => absurd hw (List.not_mem_nil w)⟩
  | cons d meas ih =>
    intro s acc
    rw [List.foldl_cons]
    cases hm : mGet s.classical_wires d with
    | some w =>
      have hstep : classicalStep (s, acc) d = (s, acc ++ [w]) := by simp only [classicalStep, hm]
      rw [hstep]
      obtain ⟨st, tail, he, hl, hty⟩ := ih s (acc ++ [w])
      refine ⟨st, w :: tail, by simp [he], by simp [hl], ?_⟩
      intro hwf ti w' hw'
      rcases List.mem_cons.1 hw' with rfl | hw'
      · exact portType_mono st.ext (ti.2 d w' hm)
      · exact hty hwf ti w' hw'
    | none =>
      have hstep : classicalStep (s, acc) d = ((load_false s).1, acc ++ [(load_false s).2]) := by
        simp only [classicalStep, hm]
      rw [hstep]
      obtain ⟨st, tail, he, hl, hty⟩ := ih (load_false s).1 (acc ++ [(load_false s).2])
      have st0 := stepOK_load_false s
      refine ⟨stepOK_trans st0 st, (load_false s).2 :: tail, by simp [he], by simp [hl], ?_⟩
      intro hwf ti w' hw'
      rcases List.mem_cons.1 hw' with rfl | hw'
      · exact portType_mono st.ext (load_false_portType hwf)
      · exact hty (st0.wf hwf) (st0.typ hwf ti) w' hw'

theorem set_outputs_hugr_nodes (b : DfgBuilder) (outs : List Wire) :
    (b.set_outputs outs).hugr.nodes = b.hugr.nodes ++
      [⟨b.hugr.next_node_id, Operation.Output (outs.map fun _ => HugrType.Qubit), outs, []⟩] := rfl

theorem set_outputs_extends (b : DfgBuilder) (outs : List Wire) :
    b.hugr.ExtendsH (b.set_outputs outs).hugr :=
  ⟨_, set_outputs_hugr_nodes b outs⟩

theorem convert_eq_error {c : GraphixToHugrConverter} {p : Pattern} {id : Nat}
    (hcol : collectQubitOutputs (processedState c p).qubit_wires (sortAsc p.output_nodes) =
      Except.error id) :
    (c.convert p).2 = Except.error (ConversionError.OutputNodeNotFound id) := by
  simp only [GraphixToHugrConverter.convert]
  rw [hcol]

theorem convert_eq_ok {c : GraphixToHugrConverter} {p : Pattern} {qwires : List Wire}
    (hcol : collectQubitOutputs (processedState c p).qubit_wires (sortAsc p.output_nodes) =
      Except.ok qwires) :
    (c.convert p).2 = Except.ok
      ((((get_measured_nodes p).foldl classicalStep (processedState c p, qwires)).1.dfg.set_outputs
        (((get_measured_nodes p).foldl classicalStep (processedState c p, qwires)).2)).hugr) := by
  simp only [GraphixToHugrConverter.convert]
  rw [hcol]

/-- For any starting converter, the post-loop graph is well-formed and all
its nodes are non-`Output` with sound rotation arguments. -/
theorem processedState_good (c : GraphixToHugrConverter) (p : Pattern) :
    HWF (processedState c p).dfg.hugr ∧
    (∀ n ∈ (processedState c p).dfg.hugr.nodes, NotOut n.operation ∧ RotOk n.operation) := by
  rw [processedState_eq]
  have st := stepOK_commands p.commands
    ⟨DfgBuilder.new (List.replicate (sortAsc p.input_nodes).length HugrType.Qubit),
     bindInputs (sortAsc p.input_nodes)
       (DfgBuilder.new
         (List.replicate (sortAsc p.input_nodes).length HugrType.Qubit)).input_wires
       c.qubit_wires,
     c.classical_wires, c.node_order⟩
  have hwf0 := new_builder_HWF (List.replicate (sortAsc p.input_nodes).length HugrType.Qubit)
  refine ⟨st.wf hwf0, ?_⟩
  intro n hn
  rcases st.good n hn with hm | hg
  · rw [new_builder_nodes, List.mem_singleton] at hm
    subst hm
    exact ⟨trivial, trivial⟩
  · exact hg

theorem isOutputB_false {op : Operation} (h : NotOut op) : op.isOutputB = false := by
  cases op <;> try rfl
  exact h.elim

/-! ### Claim theorems -/

/-- The "silently skipped" condition of a command: its subject identifier
(for `E`, either identifier) is unbound in `qubit_wires`.  `N` commands
are never skipped. -/
def SkipCondition (cmd : Command) (qw : List (Nat × Wire)) : Prop :=
  match cmd with
  | Command.N _ => False
  | Command.E nodes => mGet qw nodes.1 = none ∨ mGet qw nodes.2 = none
  | Command.M node _ _ => mGet qw node = none
  | Command.X node _ => mGet qw node = none
  | Command.Z node _ => mGet qw node = none
  | Command.C node _ => mGet qw node = none

/-- Claim C7: processing any `E`, `M`, `X`, `Z` or `C` command whose
subject identifier (for `E`, either identifier) is unbound in
`qubit_wires` leaves the translator state completely unchanged: the
`Hugr` gets no node and both wire maps are exactly as before. -/
theorem skipped_command_is_identity (cmd : Command) (s : ActiveConverter)
    (hskip : SkipCondition cmd s.qubit_wires) : process_command cmd s = s := by
  cases cmd with
  | N node => exact hskip.elim
  | E nodes =>
    show process_entangle nodes s = s
    unfold process_entangle
    cases hga : mGet s.qubit_wires nodes.1 with
    | none => rfl
    | some q1 =>
      cases hgb : mGet s.qubit_wires nodes.2 with
      | none => rfl
      | some q2 =>
        rcases hskip with hx | hx
        · rw [hga] at hx; exact absurd hx (by simp)
        · rw [hgb] at hx; exact absurd hx (by simp)
  | M node plane angle =>
    show process_measure node plane angle s = s
    unfold process_measure
    rw [show mGet s.qubit_wires node = none from hskip]
  | X node domain =>
    show process_pauli_x node domain s = s
    unfold process_pauli_x
    rw [show mGet s.qubit_wires node = none from hskip]
  | Z node domain =>
    show process_pauli_z node domain s = s
    unfold process_pauli_z
    rw [show mGet s.qubit_wires node = none from hskip]
  | C node gates =>
    show process_clifford node gates s = s
    unfold process_clifford
    rw [show mGet s.qubit_wires node = none from hskip]

/-- Witness for C7 at a concrete skipped command. -/
theorem skipped_command_is_identity_witness :
    SkipCondition (Command.E (0, 1)) (ActiveConverter.mk (DfgBuilder.new []) [] [] []).qubit_wires ∧
    process_command (Command.E (0, 1)) (ActiveConverter.mk (DfgBuilder.new []) [] [] []) =
      ActiveConverter.mk (DfgBuilder.new []) [] [] [] :=
  ⟨Or.inl rfl,
   skipped_command_is_identity (Command.E (0, 1)) (ActiveConverter.mk (DfgBuilder.new []) [] [] [])
     (Or.inl rfl)⟩

/-- Claim C2: `convert` fails exactly when some declared output identifier
has no live qubit wire after the command loop; the error is always
`OutputNodeNotFound` carrying the least such identifier. -/
theorem convert_error_characterization (c : GraphixToHugrConverter) (p : Pattern) :
    ((∃ e, (c.convert p).2 = Except.error e) ↔
      ∃ id ∈ p.output_nodes, mGet (processedState c p).qubit_wires id = none) ∧
    ∀ e, (c.convert p).2 = Except.error e →
      ∃ id, e = ConversionError.OutputNodeNotFound id ∧ id ∈ p.output_nodes ∧
        mGet (processedState c p).qubit_wires id = none ∧
        ∀ j ∈ p.output_nodes, mGet (processedState c p).qubit_wires j = none → id ≤ j := by
  cases hcol : collectQubitOutputs (processedState c p).qubit_wires (sortAsc p.output_nodes) with
  | error id =>
    obtain ⟨h1, h2, h3⟩ := collect_error_spec hcol (sortAsc_sorted _)
    have herr := convert_eq_error hcol
    constructor
    · constructor
      · intro _
        exact ⟨id, sortAsc_mem.1 h1, h2⟩
      · intro _
        exact ⟨_, herr⟩
    · intro e he
      rw [herr] at he
      injection he with he2
      subst he2
      exact ⟨id, rfl, sortAsc_mem.1 h1, h2, fun j hj hjn => h3 j (sortAsc_mem.2 hj) hjn⟩
  | ok qwires =>
    have hok := convert_eq_ok hcol
    obtain ⟨_, _, h3⟩ := collect_ok_spec hcol
    constructor
    · constructor
      · rintro ⟨e, he⟩
        rw [hok] at he
        exact absurd he (by simp)
      · rintro ⟨id, hid, hidn⟩
        exact absurd hidn (h3 id (sortAsc_mem.2 hid))
    · intro e he
      rw [hok] at he
      exact absurd he (by simp)

instance exceptDecEq {ε α : Type} [DecidableEq ε] [DecidableEq α] :
    DecidableEq (Except ε α) := fun x y =>
  match x, y with
  | Except.error a, Except.error b =>
    if h : a = b then isTrue (by rw [h])
    else isFalse (fun hc => by injection hc; contradiction)
  | Except.ok a, Except.ok b =>
    if h : a = b then isTrue (by rw [h])
    else isFalse (fun hc => by injection hc; contradiction)
  | Except.error _, Except.ok _ => isFalse (fun hc => Except.noConfusion hc)
  | Except.ok _, Except.error _ => isFalse (fun hc => Except.noConfusion hc)

/-- Decomposition of a successful conversion: the qubit outputs were all
collected, and the result is the graph after the classical fold and
`set_outputs`. -/
theorem convert_ok_decomp {c : GraphixToHugrConverter} {p : Pattern} {h : Hugr}
    (hok : (c.convert p).2 = Except.ok h) :
    ∃ qwires,
      collectQubitOutputs (processedState c p).qubit_wires (sortAsc p.output_nodes) =
        Except.ok qwires ∧
      h = ((((get_measured_nodes p).foldl classicalStep
          (processedState c p, qwires)).1.dfg.set_outputs
        (((get_measured_nodes p).foldl classicalStep (processedState c p, qwires)).2)).hugr) := by
  cases hcol : collectQubitOutputs (processedState c p).qubit_wires (sortAsc p.output_nodes) with
  | error id =>
    rw [convert_eq_error hcol] at hok
    exact absurd hok (by simp)
  | ok qwires =>
    rw [convert_eq_ok hcol] at hok
    injection hok with hok2
    exact ⟨qwires, rfl, hok2.symm⟩

/-- Claim C8: in every `Hugr` returned by a successful `convert`, no
`Custom` node named `Rx`, `Ry` or `Rz` has a first argument of magnitude
at most `1e-10` (the emitted argument is `∓angle`, whose magnitude equals
the measurement angle's). -/
theorem rotation_elision (c : GraphixToHugrConverter) (p : Pattern) (h : Hugr)
    (hok : (c.convert p).2 = Except.ok h) :
    ∀ n ∈ h.nodes, ∀ name sig ext args, n.operation = Operation.Custom name sig ext args →
      (name = "Rx" ∨ name = "Ry" ∨ name = "Rz") → ∀ a ∈ args.head?, ¬ (|a| ≤ rustEps) := by
  obtain ⟨qwires, hcol, rfl⟩ := convert_ok_decomp hok
  obtain ⟨hwf1, hgood1⟩ := processedState_good c p
  obtain ⟨st2, _⟩ := classicalFold_spec (get_measured_nodes p) (processedState c p) qwires
  intro n hn name sig ext args hop hname a ha
  rw [set_outputs_hugr_nodes] at hn
  rcases List.mem_append.1 hn with hm | hm
  · have hrot : RotOk n.operation := by
      rcases st2.good n hm with hm2 | hg
      · exact (hgood1 n hm2).2
      · exact hg.2
    rw [hop] at hrot
    exact not_le.2 (hrot hname a ha)
  · rw [List.mem_singleton] at hm
    subst hm
    exact Operation.noConfusion hop

/-- Witness for C8: a pattern with an elided rotation converts fine. -/
theorem rotation_elision_witness :
    ((GraphixToHugrConverter.new.convert
        ⟨[], [], [Command.N 0, Command.M 0 Plane.XY 0]⟩).2 =
      Except.ok ⟨[⟨0, Operation.Input [], [], []⟩,
        ⟨1, Operation.Custom "PrepareQubit" (FunctionType.new [] [HugrType.Qubit]) quantumExt [],
          [], [Wire.new 1 0]⟩,
        ⟨2, Operation.Custom "H" (FunctionType.new [HugrType.Qubit] [HugrType.Qubit]) quantumExt [],
          [Wire.new 1 0], [Wire.new 2 0]⟩,
        ⟨3, Operation.Custom "Measure" (FunctionType.new [HugrType.Qubit] [HugrType.Bool])
          quantumExt [], [Wire.new 2 0], [Wire.new 3 0]⟩,
        ⟨4, Operation.Output [HugrType.Qubit], [Wire.new 3 0], []⟩], 5, 0⟩) ∧
    (∀ n ∈ (⟨[⟨0, Operation.Input [], [], []⟩,
        ⟨1, Operation.Custom "PrepareQubit" (FunctionType.new [] [HugrType.Qubit]) quantumExt [],
          [], [Wire.new 1 0]⟩,
        ⟨2, Operation.Custom "H" (FunctionType.new [HugrType.Qubit] [HugrType.Qubit]) quantumExt [],
          [Wire.new 1 0], [Wire.new 2 0]⟩,
        ⟨3, Operation.Custom "Measure" (FunctionType.new [HugrType.Qubit] [HugrType.Bool])
          quantumExt [], [Wire.new 2 0], [Wire.new 3 0]⟩,
        ⟨4, Operation.Output [HugrType.Qubit], [Wire.new 3 0], []⟩], 5, 0⟩ : Hugr).nodes,
      ∀ name sig ext args, n.operation = Operation.Custom name sig ext args →
      (name = "Rx" ∨ name = "Ry" ∨ name = "Rz") → ∀ a ∈ args.head?, ¬ (|a| ≤ rustEps)) :=
  ⟨by decide,
   rotation_elision GraphixToHugrConverter.new ⟨[], [], [Command.N 0, Command.M 0 Plane.XY 0]⟩
     _ (by decide)⟩

theorem map_const_replicate {α β : Type} (l : List α) (x : β) :
    l.map (fun _ => x) = List.replicate l.length x := List.map_const' l x

/-- Claim C1: a successful conversion's graph has exactly one `Output`
node; it has one input wire per declared output plus one per measured
identifier; the first group originates at `Qubit`-producing ports, the
rest at `Bool`-producing ports. -/
theorem convert_output_signature (p : Pattern) (h : Hugr)
    (hok : convert_graphix_pattern_to_hugr p = Except.ok h) :
    ∃ onode,
      h.nodes.filter (fun n => n.operation.isOutputB) = [onode] ∧
      onode.inputs.length = p.output_nodes.length + (get_measured_nodes p).length ∧
      (∀ w ∈ onode.inputs.take p.output_nodes.length, h.portType w = some HugrType.Qubit) ∧
      (∀ w ∈ onode.inputs.drop p.output_nodes.length, h.portType w = some HugrType.Bool) := by
  unfold convert_graphix_pattern_to_hugr at hok
  obtain ⟨qwires, hcol, rfl⟩ := convert_ok_decomp hok
  obtain ⟨hwf1, ti1, hgood1⟩ := processedState_facts p
  obtain ⟨hlen_q, hqw, _⟩ := collect_ok_spec hcol
  obtain ⟨st2, tail, he, hlt, hty⟩ :=
    classicalFold_spec (get_measured_nodes p) (processedState GraphixToHugrConverter.new p) qwires
  have hql : qwires.length = p.output_nodes.length := by
    rw [hlen_q, sortAsc_length]
  have hfilter : ((((get_measured_nodes p).foldl classicalStep
      (processedState GraphixToHugrConverter.new p, qwires)).1.dfg.set_outputs
        (((get_measured_nodes p).foldl classicalStep
          (processedState GraphixToHugrConverter.new p, qwires)).2)).hugr.nodes).filter
      (fun n => n.operation.isOutputB) =
      [⟨((get_measured_nodes p).foldl classicalStep
          (processedState GraphixToHugrConverter.new p, qwires)).1.dfg.hugr.next_node_id,
        Operation.Output ((((get_measured_nodes p).foldl classicalStep
          (processedState GraphixToHugrConverter.new p, qwires)).2).map fun _ => HugrType.Qubit),
        ((get_measured_nodes p).foldl classicalStep
          (processedState GraphixToHugrConverter.new p, qwires)).2, []⟩] := by
    rw [set_outputs_hugr_nodes, List.filter_append]
    have h1 : (((get_measured_nodes p).foldl classicalStep
        (processedState GraphixToHugrConverter.new p, qwires)).1.dfg.hugr.nodes).filter
        (fun n => n.operation.isOutputB) = [] := by
      rw [List.filter_eq_nil_iff]
      intro n hn
      have hno : NotOut n.operation := by
        rcases st2.good n hn with hm2 | hg
        · exact (hgood1 n hm2).1
        · exact hg.1
      rw [isOutputB_false hno]
      simp
    rw [h1]
    rfl
  refine ⟨_, hfilter, ?_, ?_, ?_⟩
  · show (((get_measured_nodes p).foldl classicalStep
        (processedState GraphixToHugrConverter.new p, qwires)).2).length = _
    rw [he, List.length_append, hql, hlt]
  · intro w hw
    show Hugr.portType _ w = some HugrType.Qubit
    have hwq : w ∈ qwires := by
      have h2 : (((get_measured_nodes p).foldl classicalStep
          (processedState GraphixToHugrConverter.new p, qwires)).2).take p.output_nodes.length =
          qwires := by
        rw [he, ← hql, List.take_left]
      rw [show (⟨((get_measured_nodes p).foldl classicalStep
          (processedState GraphixToHugrConverter.new p, qwires)).1.dfg.hugr.next_node_id,
        Operation.Output ((((get_measured_nodes p).foldl classicalStep
          (processedState GraphixToHugrConverter.new p, qwires)).2).map fun _ => HugrType.Qubit),
        ((get_measured_nodes p).foldl classicalStep
          (processedState GraphixToHugrConverter.new p, qwires)).2, []⟩ : Node).inputs =
        ((get_measured_nodes p).foldl classicalStep
          (processedState GraphixToHugrConverter.new p, qwires)).2 from rfl, h2] at hw
      exact hw
    obtain ⟨k, hk⟩ := hqw w hwq
    exact portType_mono (set_outputs_extends _ _) (portType_mono st2.ext (ti1.1 k w hk))
  · intro w hw
    show Hugr.portType _ w = some HugrType.Bool
    have hwt : w ∈ tail := by
      have h2 : (((get_measured_nodes p).foldl classicalStep
          (processedState GraphixToHugrConverter.new p, qwires)).2).drop p.output_nodes.length =
          tail := by
        rw [he, ← hql, List.drop_left]
      rw [show (⟨((get_measured_nodes p).foldl classicalStep
          (processedState GraphixToHugrConverter.new p, qwires)).1.dfg.hugr.next_node_id,
        Operation.Output ((((get_measured_nodes p).foldl classicalStep
          (processedState GraphixToHugrConverter.new p, qwires)).2).map fun _ => HugrType.Qubit),
        ((get_measured_nodes p).foldl classicalStep
          (processedState GraphixToHugrConverter.new p, qwires)).2, []⟩ : Node).inputs =
        ((get_measured_nodes p).foldl classicalStep
          (processedState GraphixToHugrConverter.new p, qwires)).2 from rfl, h2] at hw
      exact hw
    exact portType_mono (set_outputs_extends _ _) (hty hwf1 ti1 w hwt)

/-- Witness for C1 at the single-prepare pattern. -/
theorem convert_output_signature_witness :
    (convert_graphix_pattern_to_hugr ⟨[], [0], [Command.N 0]⟩ =
      Except.ok ⟨[⟨0, Operation.Input [], [], []⟩,
        ⟨1, Operation.Custom "PrepareQubit" (FunctionType.new [] [HugrType.Qubit]) quantumExt [],
          [], [Wire.new 1 0]⟩,
        ⟨2, Operation.Output [HugrType.Qubit], [Wire.new 1 0], []⟩], 3, 0⟩) ∧
    ∃ onode,
      (⟨[⟨0, Operation.Input [], [], []⟩,
        ⟨1, Operation.Custom "PrepareQubit" (FunctionType.new [] [HugrType.Qubit]) quantumExt [],
          [], [Wire.new 1 0]⟩,
        ⟨2, Operation.Output [HugrType.Qubit], [Wire.new 1 0], []⟩], 3, 0⟩ : Hugr).nodes.filter
          (fun n => n.operation.isOutputB) = [onode] ∧
      onode.inputs.length = (⟨[], [0], [Command.N 0]⟩ : Pattern).output_nodes.length +
        (get_measured_nodes ⟨[], [0], [Command.N 0]⟩).length ∧
      (∀ w ∈ onode.inputs.take (⟨[], [0], [Command.N 0]⟩ : Pattern).output_nodes.length,
        Hugr.portType ⟨[⟨0, Operation.Input [], [], []⟩,
          ⟨1, Operation.Custom "PrepareQubit" (FunctionType.new [] [HugrType.Qubit]) quantumExt [],
            [], [Wire.new 1 0]⟩,
          ⟨2, Operation.Output [HugrType.Qubit], [Wire.new 1 0], []⟩], 3, 0⟩ w =
          some HugrType.Qubit) ∧
      (∀ w ∈ onode.inputs.drop (⟨[], [0], [Command.N 0]⟩ : Pattern).output_nodes.length,
        Hugr.portType ⟨[⟨0, Operation.Input [], [], []⟩,
          ⟨1, Operation.Custom "PrepareQubit" (FunctionType.new [] [HugrType.Qubit]) quantumExt [],
            [], [Wire.new 1 0]⟩,
          ⟨2, Operation.Output [HugrType.Qubit], [Wire.new 1 0], []⟩], 3, 0⟩ w =
          some HugrType.Bool) :=
  ⟨by decide, convert_output_signature ⟨[], [0], [Command.N 0]⟩ _ (by decide)⟩

/-- The derived output signature of src/converter.rs lines 57-63: one
`Qubit` per declared output followed by one `Bool` per measured
identifier (the `output_types` value, which `set_outputs` ignores). -/
def derivedOutputSignature (p : Pattern) : List HugrType :=
  List.replicate p.output_nodes.length HugrType.Qubit ++
    List.replicate (get_measured_nodes p).length HugrType.Bool

/-- Claim C10: the `Output` node's declared types are all `Qubit` — one
per input wire — and therefore differ from the derived Qubit-then-Bool
signature whenever at least one measured identifier contributes a
classical output. -/
theorem output_types_all_qubit (c : GraphixToHugrConverter) (p : Pattern) (h : Hugr)
    (hok : (c.convert p).2 = Except.ok h) :
    ∀ n ∈ h.nodes, ∀ ts, n.operation = Operation.Output ts →
      ts = List.replicate n.inputs.length HugrType.Qubit ∧
      (get_measured_nodes p ≠ [] → ts ≠ derivedOutputSignature p) := by
  obtain ⟨qwires, hcol, rfl⟩ := convert_ok_decomp hok
  obtain ⟨hwf1, hgood1⟩ := processedState_good c p
  obtain ⟨hlen_q, _, _⟩ := collect_ok_spec hcol
  obtain ⟨st2, tail, he, hlt, _⟩ :=
    classicalFold_spec (get_measured_nodes p) (processedState c p) qwires
  have hql : qwires.length = p.output_nodes.length := by rw [hlen_q, sortAsc_length]
  intro n hn ts hts
  rw [set_outputs_hugr_nodes] at hn
  rcases List.mem_append.1 hn with hm | hm
  · have hno : NotOut n.operation := by
      rcases st2.good n hm with hm2 | hg
      · exact (hgood1 n hm2).1
      · exact hg.1
    rw [hts] at hno
    exact hno.elim
  · rw [List.mem_singleton] at hm
    subst hm
    injection hts with hts2
    have hinp : (⟨((get_measured_nodes p).foldl classicalStep
        (processedState c p, qwires)).1.dfg.hugr.next_node_id,
        Operation.Output ((((get_measured_nodes p).foldl classicalStep
          (processedState c p, qwires)).2).map fun _ => HugrType.Qubit),
        ((get_measured_nodes p).foldl classicalStep (processedState c p, qwires)).2,
        []⟩ : Node).inputs =
        ((get_measured_nodes p).foldl classicalStep (processedState c p, qwires)).2 := rfl
    have hts3 : ts = List.replicate
        ((((get_measured_nodes p).foldl classicalStep (processedState c p, qwires)).2).length)
        HugrType.Qubit := by
      rw [← hts2, map_const_replicate]
    constructor
    · rw [hinp]
      exact hts3
    · intro hne hcontra
      have hml : 0 < (get_measured_nodes p).length := List.length_pos.2 hne
      have hlen2 : (((get_measured_nodes p).foldl classicalStep
          (processedState c p, qwires)).2).length =
          p.output_nodes.length + (get_measured_nodes p).length := by
        rw [he, List.length_append, hql, hlt]
      have hx : ts[p.output_nodes.length]? = some HugrType.Qubit := by
        rw [hts3, List.getElem?_replicate, if_pos (by omega : p.output_nodes.length <
          (((get_measured_nodes p).foldl classicalStep
            (processedState c p, qwires)).2).length)]
      have hy : ts[p.output_nodes.length]? = some HugrType.Bool := by
        rw [hcontra]
        unfold derivedOutputSignature
        rw [List.getElem?_append]
        rw [if_neg (by simp)]
        rw [List.length_replicate, Nat.sub_self, List.getElem?_replicate, if_pos hml]
      rw [hx] at hy
      exact HugrType.noConfusion (Option.some.inj hy)

/-- Witness for C10 at the measured-ancilla pattern S3. -/
theorem output_types_all_qubit_witness :
    ((GraphixToHugrConverter.new.convert
        ⟨[0], [0], [Command.N 1, Command.M 1 Plane.XY 0, Command.X 0 [1]]⟩).2 =
      Except.ok ⟨[⟨0, Operation.Input [HugrType.Qubit], [], []⟩,
        ⟨1, Operation.Custom "PrepareQubit" (FunctionType.new [] [HugrType.Qubit]) quantumExt [],
          [], [Wire.new 1 0]⟩,
        ⟨2, Operation.Custom "H" (FunctionType.new [HugrType.Qubit] [HugrType.Qubit]) quantumExt [],
          [Wire.new 1 0], [Wire.new 2 0]⟩,
        ⟨3, Operation.Custom "Measure" (FunctionType.new [HugrType.Qubit] [HugrType.Bool])
          quantumExt [], [Wire.new 2 0], [Wire.new 3 0]⟩,
        ⟨4, Operation.Custom "ConditionalX"
          (FunctionType.new [HugrType.Bool, HugrType.Qubit] [HugrType.Qubit]) quantumExt [],
          [Wire.new 3 0, Wire.new 0 0], [Wire.new 4 0]⟩,
        ⟨5, Operation.Output [HugrType.Qubit, HugrType.Qubit],
          [Wire.new 4 0, Wire.new 3 0], []⟩], 6, 0⟩) ∧
    (∀ n ∈ (⟨[⟨0, Operation.Input [HugrType.Qubit], [], []⟩,
        ⟨1, Operation.Custom "PrepareQubit" (FunctionType.new [] [HugrType.Qubit]) quantumExt [],
          [], [Wire.new 1 0]⟩,
        ⟨2, Operation.Custom "H" (FunctionType.new [HugrType.Qubit] [HugrType.Qubit]) quantumExt [],
          [Wire.new 1 0], [Wire.new 2 0]⟩,
        ⟨3, Operation.Custom "Measure" (FunctionType.new [HugrType.Qubit] [HugrType.Bool])
          quantumExt [], [Wire.new 2 0], [Wire.new 3 0]⟩,
        ⟨4, Operation.Custom "ConditionalX"
          (FunctionType.new [HugrType.Bool, HugrType.Qubit] [HugrType.Qubit]) quantumExt [],
          [Wire.new 3 0, Wire.new 0 0], [Wire.new 4 0]⟩,
        ⟨5, Operation.Output [HugrType.Qubit, HugrType.Qubit],
          [Wire.new 4 0, Wire.new 3 0], []⟩], 6, 0⟩ : Hugr).nodes,
      ∀ ts, n.operation = Operation.Output ts →
        ts = List.replicate n.inputs.length HugrType.Qubit ∧
        (get_measured_nodes ⟨[0], [0], [Command.N 1, Command.M 1 Plane.XY 0, Command.X 0 [1]]⟩ ≠
            [] →
          ts ≠ derivedOutputSignature
            ⟨[0], [0], [Command.N 1, Command.M 1 Plane.XY 0, Command.X 0 [1]]⟩)) :=
  ⟨by decide,
   output_types_all_qubit GraphixToHugrConverter.new
     ⟨[0], [0], [Command.N 1, Command.M 1 Plane.XY 0, Command.X 0 [1]]⟩ _ (by decide)⟩

/-! ### XOR-reduction shape (C4) -/

/-- How many identifiers of `l` currently have a classical wire. -/
def countPresent (cw : List (Nat × Wire)) (l : List Nat) : Nat :=
  (l.filter (fun d => (mGet cw d).isSome)).length

/-- The classical wires of the identifiers of `l` that have one, in the
order of `l`. -/
def presentWires (cw : List (Nat × Wire)) (l : List Nat) : List Wire :=
  l.filterMap (mGet cw)

/-- Number of `XOR` nodes in a graph. -/
def countXorNodes (h : Hugr) : Nat :=
  (h.nodes.filter (fun n => decide (n.operation = xor_op))).length

/-- Number of `Const(Bool(false))` nodes in a graph. -/
def countFalseConstNodes (h : Hugr) : Nat :=
  (h.nodes.filter (fun n => decide (n.operation = Operation.Const (ConstValue.Bool false)))).length

/-- Models `cond` is the left-nested XOR reduction of the wires `ws` (in order)
inside the graph `h`: a single wire reduces to itself, and each further
wire is combined by an `XOR` node present in `h`. -/
inductive IsXorReduction (h : Hugr) : Wire → List Wire → Prop where
  | single (w : Wire) : IsXorReduction h w [w]
  | step {w : Wire} {ws : List Wire} (wn : Wire) (n : Node) (hmem : h.getNode n.id = some n)
      (hop : n.operation = xor_op) (hin : n.inputs = [w, wn])
      (hprev : IsXorReduction h w ws) : IsXorReduction h (n.out 0) (ws ++ [wn])

theorem isXorReduction_mono {h h' : Hugr} (e : h.ExtendsH h') {w : Wire} {ws : List Wire}
    (hx : IsXorReduction h w ws) : IsXorReduction h' w ws := by
  induction hx with
  | single w => exact IsXorReduction.single w
  | step wn n hmem hop hin hprev ih => exact IsXorReduction.step wn n (getNode_mono e hmem) hop hin ih

theorem presentWires_cons_none {cw : List (Nat × Wire)} {d : Nat} (rest : List Nat)
    (hm : mGet cw d = none) : presentWires cw (d :: rest) = presentWires cw rest := by
  simp [presentWires, List.filterMap_cons, hm]

theorem presentWires_cons_some {cw : List (Nat × Wire)} {d : Nat} {w : Wire} (rest : List Nat)
    (hm : mGet cw d = some w) : presentWires cw (d :: rest) = w :: presentWires cw rest := by
  simp [presentWires, List.filterMap_cons, hm]

theorem countPresent_cons_none {cw : List (Nat × Wire)} {d : Nat} (rest : List Nat)
    (hm : mGet cw d = none) : countPresent cw (d :: rest) = countPresent cw rest := by
  simp [countPresent, List.filter_cons, hm]

theorem countPresent_cons_some {cw : List (Nat × Wire)} {d : Nat} {w : Wire} (rest : List Nat)
    (hm : mGet cw d = some w) : countPresent cw (d :: rest) = countPresent cw rest + 1 := by
  simp [countPresent, List.filter_cons, hm]

/-- Full description of the XOR-reduction loop: it appends one `XOR` node
per present identifier and returns the chained reduction wire. -/
theorem xorFold_spec (rest : List Nat) :
    ∀ (s : ActiveConverter) (w0 : Wire),
      ∃ l, (rest.foldl xorStep (s, w0)).1.dfg.hugr.nodes = s.dfg.hugr.nodes ++ l ∧
        (∀ n ∈ l, n.operation = xor_op) ∧
        l.length = countPresent s.classical_wires rest ∧
        (∀ ws0, HWF s.dfg.hugr → IsXorReduction s.dfg.hugr w0 ws0 →
          IsXorReduction (rest.foldl xorStep (s, w0)).1.dfg.hugr
            ((rest.foldl xorStep (s, w0)).2) (ws0 ++ presentWires s.classical_wires rest)) := by
  induction rest with
  | nil =>
    intro s w0
    refine ⟨[], by simp, fun n hn => absurd hn (List.not_mem_nil n), rfl, ?_⟩
    intro ws0 _ hx
    simpa [presentWires] using hx
  | cons d rest ih =>
    intro s w0
    rw [List.foldl_cons]
    cases hm : mGet s.classical_wires d with
    | none =>
      have hstep : xorStep (s, w0) d = (s, w0) := by simp only [xorStep, hm]
      rw [hstep]
      obtain ⟨l, h1, h2, h3, h4⟩ := ih s w0
      refine ⟨l, h1, h2, ?_, ?_⟩
      · rw [h3, countPresent_cons_none rest hm]
      · intro ws0 hwf hx
        rw [presentWires_cons_none rest hm]
        exact h4 ws0 hwf hx
    | some wire =>
      have hstep : xorStep (s, w0) d =
          (⟨(s.dfg.add_op xor_op [w0, wire]).1, s.qubit_wires, s.classical_wires, s.node_order⟩,
           (s.dfg.add_op xor_op [w0, wire]).2.out 0) := by
        simp only [xorStep, hm]
      rw [hstep]
      obtain ⟨l, h1, h2, h3, h4⟩ := ih
        ⟨(s.dfg.add_op xor_op [w0, wire]).1, s.qubit_wires, s.classical_wires, s.node_order⟩
        ((s.dfg.add_op xor_op [w0, wire]).2.out 0)
      refine ⟨(s.dfg.add_op xor_op [w0, wire]).2 :: l, ?_, ?_, ?_, ?_⟩
      · rw [h1]
        show (s.dfg.add_op xor_op [w0, wire]).1.hugr.nodes ++ l = _
        rw [add_op_fst]
        simp
      · intro n hn
        rcases List.mem_cons.1 hn with rfl | hn
        · rfl
        · exact h2 n hn
      · show l.length + 1 = _
        rw [countPresent_cons_some rest hm]
        congr 1
      · intro ws0 hwf hx
        rw [presentWires_cons_some rest hm]
        have hchain : IsXorReduction (s.dfg.add_op xor_op [w0, wire]).1.hugr
            ((s.dfg.add_op xor_op [w0, wire]).2.out 0) (ws0 ++ [wire]) := by
          refine IsXorReduction.step wire (s.dfg.add_op xor_op [w0, wire]).2
            (getNode_add_op hwf xor_op [w0, wire]) rfl rfl ?_
          exact isXorReduction_mono (add_op_extends _ _ _) hx
        have := h4 (ws0 ++ [wire]) (HWF_add_op hwf xor_op [w0, wire]) hchain
        rw [List.append_assoc] at this
        simpa using this

/-- When the sorted domain is empty or its least element has no classical
wire, `compute_xor_of_measurements` is exactly `load_false`. -/
theorem compute_xor_eq_load_false {domain : List Nat} {s : ActiveConverter}
    (hD : dedupConsecutive (sortAsc domain) = [] ∨
      ∃ d0 rest, dedupConsecutive (sortAsc domain) = d0 :: rest ∧
        mGet s.classical_wires d0 = none) :
    compute_xor_of_measurements domain s = load_false s := by
  unfold compute_xor_of_measurements
  rcases hD with hD | ⟨d0, rest, hD, hm⟩
  · rw [hD]
  · rw [hD]
    show (match mGet s.classical_wires d0 with
      | some result => rest.foldl xorStep (s, result)
      | none => load_false s) = load_false s
    rw [hm]

/-- When the least sorted-domain element has a classical wire, the
XOR-reduction appends one `XOR` node per further present identifier and
returns the reduction of all present wires in ascending order. -/
theorem compute_xor_present {domain : List Nat} {s : ActiveConverter} {d0 : Nat}
    {rest : List Nat} {w0 : Wire}
    (hD : dedupConsecutive (sortAsc domain) = d0 :: rest)
    (hm : mGet s.classical_wires d0 = some w0) (hwf : HWF s.dfg.hugr) :
    ∃ l, (compute_xor_of_measurements domain s).1.dfg.hugr.nodes = s.dfg.hugr.nodes ++ l ∧
      (∀ n ∈ l, n.operation = xor_op) ∧
      l.length = countPresent s.classical_wires rest ∧
      IsXorReduction (compute_xor_of_measurements domain s).1.dfg.hugr
        (compute_xor_of_measurements domain s).2
        (presentWires s.classical_wires (dedupConsecutive (sortAsc domain))) := by
  have hcx : compute_xor_of_measurements domain s = rest.foldl xorStep (s, w0) := by
    unfold compute_xor_of_measurements
    rw [hD]
    show (match mGet s.classical_wires d0 with
      | some result => rest.foldl xorStep (s, result)
      | none => load_false s) = _
    rw [hm]
  rw [hcx, hD, presentWires_cons_some rest hm]
  obtain ⟨l, h1, h2, h3, h4⟩ := xorFold_spec rest s w0
  exact ⟨l, h1, h2, h3, h4 [w0] hwf (IsXorReduction.single w0)⟩

/-- The state produced by the body of `process_pauli_x`/`process_pauli_z`
once the subject is known to be bound (`gname` is `"X"` or `"Z"`). -/
def pauliStateAfter (gname : String) (qw : Wire) (domain : List Nat) (node : Nat)
    (s : ActiveConverter) : ActiveConverter :=
  let r1 := compute_xor_of_measurements domain s
  let r2 := apply_conditional_gate qw r1.2 gname r1.1
  { r2.1 with qubit_wires := mInsert node r2.2 r2.1.qubit_wires }

theorem process_pauli_x_eq {node : Nat} {domain : List Nat} {s : ActiveConverter} {qw : Wire}
    (hq : mGet s.qubit_wires node = some qw) :
    process_pauli_x node domain s = pauliStateAfter "X" qw domain node s := by
  unfold process_pauli_x
  rw [hq]
  rfl

theorem process_pauli_z_eq {node : Nat} {domain : List Nat} {s : ActiveConverter} {qw : Wire}
    (hq : mGet s.qubit_wires node = some qw) :
    process_pauli_z node domain s = pauliStateAfter "Z" qw domain node s := by
  unfold process_pauli_z
  rw [hq]
  rfl

/-- Node shape of a lowered correction, in the two regimes. -/
theorem pauliStateAfter_shape (gname : String) (qw : Wire) (domain : List Nat) (node : Nat)
    (s : ActiveConverter) (hwf : HWF s.dfg.hugr) :
    (∀ d0 rest, dedupConsecutive (sortAsc domain) = d0 :: rest →
      ∀ w0, mGet s.classical_wires d0 = some w0 →
      ∃ cond xnodes cnode,
        (pauliStateAfter gname qw domain node s).dfg.hugr.nodes =
          s.dfg.hugr.nodes ++ xnodes ++ [cnode] ∧
        (∀ n ∈ xnodes, n.operation = xor_op) ∧
        xnodes.length =
          countPresent s.classical_wires (dedupConsecutive (sortAsc domain)) - 1 ∧
        cnode.operation = Operation.Custom ("Conditional" ++ gname)
          (FunctionType.new [HugrType.Bool, HugrType.Qubit] [HugrType.Qubit]) quantumExt [] ∧
        cnode.inputs = [cond, qw] ∧
        IsXorReduction (pauliStateAfter gname qw domain node s).dfg.hugr cond
          (presentWires s.classical_wires (dedupConsecutive (sortAsc domain)))) ∧
    ((dedupConsecutive (sortAsc domain) = [] ∨
      ∃ d0 rest, dedupConsecutive (sortAsc domain) = d0 :: rest ∧
        mGet s.classical_wires d0 = none) →
      ∃ cnode,
        (pauliStateAfter gname qw domain node s).dfg.hugr.nodes = s.dfg.hugr.nodes ++
          [⟨s.dfg.hugr.next_node_id, Operation.Const (ConstValue.Bool false), [], []⟩,
           ⟨s.dfg.hugr.next_node_id + 1, Operation.LoadConst s.dfg.hugr.next_node_id, [],
            [Wire.new (s.dfg.hugr.next_node_id + 1) 0]⟩, cnode] ∧
        cnode.operation = Operation.Custom ("Conditional" ++ gname)
          (FunctionType.new [HugrType.Bool, HugrType.Qubit] [HugrType.Qubit]) quantumExt [] ∧
        cnode.inputs = [Wire.new (s.dfg.hugr.next_node_id + 1) 0, qw]) := by
  constructor
  · intro d0 rest hD w0 hm
    obtain ⟨l, h1, h2, h3, h4⟩ := compute_xor_present hD hm hwf
    refine ⟨(compute_xor_of_measurements domain s).2, l,
      ((compute_xor_of_measurements domain s).1.dfg.add_op
        (Operation.Custom ("Conditional" ++ gname)
          (FunctionType.new [HugrType.Bool, HugrType.Qubit] [HugrType.Qubit]) quantumExt [])
        [(compute_xor_of_measurements domain s).2, qw]).2, ?_, h2, ?_, rfl, rfl, ?_⟩
    · show ((compute_xor_of_measurements domain s).1.dfg.add_op _ _).1.hugr.nodes = _
      rw [add_op_fst, h1]
    · rw [h3, hD, countPresent_cons_some rest hm]
      simp
    · exact isXorReduction_mono (add_op_extends _ _ _) h4
  · intro hD
    have hcx := compute_xor_eq_load_false hD
    refine ⟨((load_false s).1.dfg.add_op
      (Operation.Custom ("Conditional" ++ gname)
        (FunctionType.new [HugrType.Bool, HugrType.Qubit] [HugrType.Qubit]) quantumExt [])
      [(load_false s).2, qw]).2, ?_, rfl, ?_⟩
    · show ((compute_xor_of_measurements domain s).1.dfg.add_op _
        [(compute_xor_of_measurements domain s).2, qw]).1.hugr.nodes = _
      rw [hcx]
      rw [add_op_fst, load_false_nodes]
      simp
    · show [(load_false s).2, qw] = _
      rw [load_false_wire]

/-- The correction gate name of an `X`/`Z` command. -/
def cmdGateName : Command → String
  | Command.X _ _ => "X"
  | Command.Z _ _ => "Z"
  | _ => ""

/-- Amended C4: for an `X` or `Z` correction on a bound identifier, when
the *least* sorted-domain identifier is present among the classical
wires, exactly `k − 1` `XOR` nodes are emitted (`k` = number of present
identifiers in the sorted domain) and the condition wire is the XOR
reduction of the present classical wires in ascending order; when the
domain is empty *or its least identifier is absent*, a
`Const(Bool(false))` + `LoadConst` pair is emitted as the condition
instead (even if later identifiers are present). -/
theorem xor_shape_amended (s : ActiveConverter) (node : Nat) (domain : List Nat) (cmd : Command)
    (hwf : HWF s.dfg.hugr)
    (hcmd : cmd = Command.X node domain ∨ cmd = Command.Z node domain)
    (qw : Wire) (hq : mGet s.qubit_wires node = some qw) :
    (∀ d0 rest, dedupConsecutive (sortAsc domain) = d0 :: rest →
      ∀ w0, mGet s.classical_wires d0 = some w0 →
      ∃ cond xnodes cnode,
        (process_command cmd s).dfg.hugr.nodes = s.dfg.hugr.nodes ++ xnodes ++ [cnode] ∧
        (∀ n ∈ xnodes, n.operation = xor_op) ∧
        xnodes.length =
          countPresent s.classical_wires (dedupConsecutive (sortAsc domain)) - 1 ∧
        cnode.operation = Operation.Custom ("Conditional" ++ cmdGateName cmd)
          (FunctionType.new [HugrType.Bool, HugrType.Qubit] [HugrType.Qubit]) quantumExt [] ∧
        cnode.inputs = [cond, qw] ∧
        IsXorReduction (process_command cmd s).dfg.hugr cond
          (presentWires s.classical_wires (dedupConsecutive (sortAsc domain)))) ∧
    ((dedupConsecutive (sortAsc domain) = [] ∨
      ∃ d0 rest, dedupConsecutive (sortAsc domain) = d0 :: rest ∧
        mGet s.classical_wires d0 = none) →
      ∃ cnode,
        (process_command cmd s).dfg.hugr.nodes = s.dfg.hugr.nodes ++
          [⟨s.dfg.hugr.next_node_id, Operation.Const (ConstValue.Bool false), [], []⟩,
           ⟨s.dfg.hugr.next_node_id + 1, Operation.LoadConst s.dfg.hugr.next_node_id, [],
            [Wire.new (s.dfg.hugr.next_node_id + 1) 0]⟩, cnode] ∧
        cnode.operation = Operation.Custom ("Conditional" ++ cmdGateName cmd)
          (FunctionType.new [HugrType.Bool, HugrType.Qubit] [HugrType.Qubit]) quantumExt [] ∧
        cnode.inputs = [Wire.new (s.dfg.hugr.next_node_id + 1) 0, qw]) := by
  rcases hcmd with rfl | rfl
  · have he : process_command (Command.X node domain) s = pauliStateAfter "X" qw domain node s := by
      show process_pauli_x node domain s = _
      exact process_pauli_x_eq hq
    rw [he]
    exact pauliStateAfter_shape "X" qw domain node s hwf
  · have he : process_command (Command.Z node domain) s = pauliStateAfter "Z" qw domain node s := by
      show process_pauli_z node domain s = _
      exact process_pauli_z_eq hq
    rw [he]
    exact pauliStateAfter_shape "Z" qw domain node s hwf

/-- Witness for the amended C4 at a concrete empty-domain correction. -/
theorem xor_shape_amended_witness :
    HWF (ActiveConverter.mk (DfgBuilder.new [HugrType.Qubit]) [(0, Wire.new 0 0)] [] []).dfg.hugr ∧
    mGet (ActiveConverter.mk (DfgBuilder.new [HugrType.Qubit])
      [(0, Wire.new 0 0)] [] []).qubit_wires 0 = some (Wire.new 0 0) ∧
    ((dedupConsecutive (sortAsc ([] : List Nat)) = [] ∨
      ∃ d0 rest, dedupConsecutive (sortAsc ([] : List Nat)) = d0 :: rest ∧
        mGet (ActiveConverter.mk (DfgBuilder.new [HugrType.Qubit])
          [(0, Wire.new 0 0)] [] []).classical_wires d0 = none) →
      ∃ cnode,
        (process_command (Command.X 0 []) (ActiveConverter.mk (DfgBuilder.new [HugrType.Qubit])
          [(0, Wire.new 0 0)] [] [])).dfg.hugr.nodes =
          (ActiveConverter.mk (DfgBuilder.new [HugrType.Qubit])
            [(0, Wire.new 0 0)] [] []).dfg.hugr.nodes ++
          [⟨1, Operation.Const (ConstValue.Bool false), [], []⟩,
           ⟨2, Operation.LoadConst 1, [], [Wire.new 2 0]⟩, cnode] ∧
        cnode.operation = Operation.Custom ("Conditional" ++ cmdGateName (Command.X 0 []))
          (FunctionType.new [HugrType.Bool, HugrType.Qubit] [HugrType.Qubit]) quantumExt [] ∧
        cnode.inputs = [Wire.new 2 0, Wire.new 0 0]) :=
  ⟨new_builder_HWF [HugrType.Qubit], by decide,
   (xor_shape_amended (ActiveConverter.mk (DfgBuilder.new [HugrType.Qubit])
      [(0, Wire.new 0 0)] [] []) 0 [] (Command.X 0 []) (new_builder_HWF [HugrType.Qubit])
      (Or.inl rfl) (Wire.new 0 0) (by decide)).2⟩

/-! ### Claims C3, C5, C6, C9 -/

theorem xorFold_qw (rest : List Nat) :
    ∀ (s : ActiveConverter) (w0 : Wire),
      (rest.foldl xorStep (s, w0)).1.qubit_wires = s.qubit_wires := by
  induction rest with
  | nil => intro s w0; rfl
  | cons d rest ih =>
    intro s w0
    rw [List.foldl_cons]
    cases hm : mGet s.classical_wires d with
    | none =>
      have hstep : xorStep (s, w0) d = (s, w0) := by simp only [xorStep, hm]
      rw [hstep]
      exact ih s w0
    | some wire =>
      have hstep : xorStep (s, w0) d =
          (⟨(s.dfg.add_op xor_op [w0, wire]).1, s.qubit_wires, s.classical_wires, s.node_order⟩,
           (s.dfg.add_op xor_op [w0, wire]).2.out 0) := by
        simp only [xorStep, hm]
      rw [hstep]
      exact ih _ _

theorem compute_xor_qw (domain : List Nat) (s : ActiveConverter) :
    (compute_xor_of_measurements domain s).1.qubit_wires = s.qubit_wires := by
  unfold compute_xor_of_measurements
  cases hD : dedupConsecutive (sortAsc domain) with
  | nil => rfl
  | cons d0 rest =>
    show ((match mGet s.classical_wires d0 with
      | some result => rest.foldl xorStep (s, result)
      | none => load_false s)).1.qubit_wires = _
    cases hm : mGet s.classical_wires d0 with
    | some result => exact xorFold_qw rest s result
    | none => rfl

theorem cliffordFold_qw (gates : List CliffordGate) :
    ∀ (s : ActiveConverter) (w0 : Wire),
      (gates.foldl cliffordStep (s, w0)).1.qubit_wires = s.qubit_wires := by
  induction gates with
  | nil => intro s w0; rfl
  | cons g gates ih =>
    intro s w0
    rw [List.foldl_cons]
    cases hco : cliffordOp g with
    | none =>
      have hstep : cliffordStep (s, w0) g = (s, w0) := by simp only [cliffordStep, hco]
      rw [hstep]
      exact ih s w0
    | some op =>
      have hstep : cliffordStep (s, w0) g =
          (⟨(s.dfg.add_op op [w0]).1, s.qubit_wires, s.classical_wires, s.node_order⟩,
           (s.dfg.add_op op [w0]).2.out 0) := by
        simp only [cliffordStep, hco]
      rw [hstep]
      exact ih _ _

/-- A command other than `N id` cannot bind `id`: once `id` is unbound in
`qubit_wires` (in particular, after it was measured), every non-`N id`
command leaves it unbound. -/
theorem step_preserves_unbound (cmd : Command) (s : ActiveConverter) (id : Nat)
    (hne : cmd ≠ Command.N id) (h : mGet s.qubit_wires id = none) :
    mGet (process_command cmd s).qubit_wires id = none := by
  cases cmd with
  | N n =>
    have hn : n ≠ id := fun he => hne (by rw [he])
    show mGet (process_prepare n s).qubit_wires id = none
    unfold process_prepare
    show mGet (mInsert n _ s.qubit_wires) id = none
    rw [mGet_mInsert_ne (fun he => hn he.symm)]
    exact h
  | E nodes =>
    show mGet (process_entangle nodes s).qubit_wires id = none
    unfold process_entangle
    cases hga : mGet s.qubit_wires nodes.1 with
    | none => exact h
    | some q1 =>
      cases hgb : mGet s.qubit_wires nodes.2 with
      | none => exact h
      | some q2 =>
        have h1 : id ≠ nodes.1 := fun he => by rw [he, hga] at h; exact Option.noConfusion h
        have h2 : id ≠ nodes.2 := fun he => by rw [he, hgb] at h; exact Option.noConfusion h
        show mGet (mInsert nodes.2 _ (mInsert nodes.1 _ s.qubit_wires)) id = none
        rw [mGet_mInsert_ne h2, mGet_mInsert_ne h1]
        exact h
  | M n plane angle =>
    show mGet (process_measure n plane angle s).qubit_wires id = none
    unfold process_measure
    cases hq : mGet s.qubit_wires n with
    | none => exact h
    | some qubit_wire =>
      show mGet (mRemove n s.qubit_wires) id = none
      by_cases he : id = n
      · subst he; exact mGet_mRemove_self id s.qubit_wires
      · rw [mGet_mRemove_ne he]; exact h
  | X n domain =>
    show mGet (process_pauli_x n domain s).qubit_wires id = none
    unfold process_pauli_x
    cases hq : mGet s.qubit_wires n with
    | none => exact h
    | some qubit_wire =>
      have h1 : id ≠ n := fun he => by rw [he, hq] at h; exact Option.noConfusion h
      show mGet (mInsert n _
        (apply_conditional_gate qubit_wire (compute_xor_of_measurements domain s).2 "X"
          (compute_xor_of_measurements domain s).1).1.qubit_wires) id = none
      rw [mGet_mInsert_ne h1]
      show mGet (compute_xor_of_measurements domain s).1.qubit_wires id = none
      rw [compute_xor_qw]
      exact h
  | Z n domain =>
    show mGet (process_pauli_z n domain s).qubit_wires id = none
    unfold process_pauli_z
    cases hq : mGet s.qubit_wires n with
    | none => exact h
    | some qubit_wire =>
      have h1 : id ≠ n := fun he => by rw [he, hq] at h; exact Option.noConfusion h
      show mGet (mInsert n _
        (apply_conditional_gate qubit_wire (compute_xor_of_measurements domain s).2 "Z"
          (compute_xor_of_measurements domain s).1).1.qubit_wires) id = none
      rw [mGet_mInsert_ne h1]
      show mGet (compute_xor_of_measurements domain s).1.qubit_wires id = none
      rw [compute_xor_qw]
      exact h
  | C n gates =>
    show mGet (process_clifford n gates s).qubit_wires id = none
    unfold process_clifford
    cases hq : mGet s.qubit_wires n with
    | none => exact h
    | some qubit_wire =>
      have h1 : id ≠ n := fun he => by rw [he, hq] at h; exact Option.noConfusion h
      show mGet (mInsert n _ (gates.foldl cliffordStep (s, qubit_wire)).1.qubit_wires) id = none
      rw [mGet_mInsert_ne h1, cliffordFold_qw]
      exact h

/-- Counterexample to C4 as stated: for the pattern
`({0}, {0}, [N 5, M(5, XY, 0), X(0, {3,5})])` the sorted domain `[3,5]`
has exactly `k = 1` present classical bit when the correction runs, yet
the correction emits a `Const(Bool(false))` node (so the "`Const` pair
exactly when `k = 0`" part, and the "condition is the XOR of the present
wires" part, are both false): the code only inspects the *least* domain
element. -/
theorem xor_shape_counterexample :
    countPresent (processedState GraphixToHugrConverter.new
        ⟨[0], [0], [Command.N 5, Command.M 5 Plane.XY 0]⟩).classical_wires
      (dedupConsecutive (sortAsc [3, 5])) = 1 ∧
    countFalseConstNodes (processedState GraphixToHugrConverter.new
      ⟨[0], [0], [Command.N 5, Command.M 5 Plane.XY 0]⟩).dfg.hugr = 0 ∧
    countFalseConstNodes (process_command (Command.X 0 [3, 5])
      (processedState GraphixToHugrConverter.new
        ⟨[0], [0], [Command.N 5, Command.M 5 Plane.XY 0]⟩)).dfg.hugr = 1 := by
  decide

/-- Amended C6: once an identifier is unbound in `qubit_wires` (in
particular right after its `M` command removed it), it stays unbound
through all remaining commands as long as none of them is an `N` command
on that same identifier.  (An `N` command *does* re-insert it, which is
what the counterexample exhibits.) -/
theorem no_reentry_without_prepare (cmds : List Command) :
    ∀ (s : ActiveConverter) (id : Nat), mGet s.qubit_wires id = none →
      Command.N id ∉ cmds →
      mGet (cmds.foldl (fun s cmd => process_command cmd s) s).qubit_wires id = none := by
  induction cmds with
  | nil => exact fun s id h _ => h
  | cons cmd cmds ih =>
    intro s id h hni
    rw [List.foldl_cons]
    have hne : cmd ≠ Command.N id := fun he => hni (he ▸ List.mem_cons_self cmd cmds)
    exact ih (process_command cmd s) id (step_preserves_unbound cmd s id hne h)
      (fun hm => hni (List.mem_cons_of_mem cmd hm))

/-- Witness for the amended C6. -/
theorem no_reentry_without_prepare_witness :
    mGet (ActiveConverter.mk (DfgBuilder.new []) [] [] []).qubit_wires 1 = none ∧
    Command.N 1 ∉ [Command.E (1, 2)] ∧
    mGet ([Command.E (1, 2)].foldl (fun s cmd => process_command cmd s)
      (ActiveConverter.mk (DfgBuilder.new []) [] [] [])).qubit_wires 1 = none :=
  ⟨rfl, by decide,
   no_reentry_without_prepare [Command.E (1, 2)]
     (ActiveConverter.mk (DfgBuilder.new []) [] [] []) 1 rfl (by decide)⟩

/-- Counterexample to C6 as stated: in the pattern
`({}, {1}, [N 1, M(1, XY, 0), N 1])` the identifier `1` is removed from
`qubit_wires` by the `M` command and then *re-inserted* by the trailing
`N 1` command. -/
theorem measured_reentry_counterexample :
    mGet (processedState GraphixToHugrConverter.new
      ⟨[], [1], [Command.N 1, Command.M 1 Plane.XY 0]⟩).qubit_wires 1 = none ∧
    mGet (processedState GraphixToHugrConverter.new
      ⟨[], [1], [Command.N 1, Command.M 1 Plane.XY 0, Command.N 1]⟩).qubit_wires 1 =
      some (Wire.new 4 0) := by
  decide

/-- Claim C5: scenario S3 — the pattern
`({0}, {0}, [N 1, M(1, XY, 0), X(0, {1})])` converts to exactly six
nodes in id order: `Input [Qubit]`; `PrepareQubit`; `H` consuming the
prepared wire; `Measure` consuming `H`'s output and producing classical
wire `c1 = (3,0)`; `ConditionalX` with inputs `[c1, input wire]`; and
`Output` with inputs `[ConditionalX output, c1]`.  No `Rz` appears since
the angle is `0`. -/
theorem s3_scenario :
    convert_graphix_pattern_to_hugr
        ⟨[0], [0], [Command.N 1, Command.M 1 Plane.XY 0, Command.X 0 [1]]⟩ =
      Except.ok ⟨[⟨0, Operation.Input [HugrType.Qubit], [], []⟩,
        ⟨1, Operation.Custom "PrepareQubit" (FunctionType.new [] [HugrType.Qubit]) quantumExt [],
          [], [Wire.new 1 0]⟩,
        ⟨2, Operation.Custom "H" (FunctionType.new [HugrType.Qubit] [HugrType.Qubit]) quantumExt [],
          [Wire.new 1 0], [Wire.new 2 0]⟩,
        ⟨3, Operation.Custom "Measure" (FunctionType.new [HugrType.Qubit] [HugrType.Bool])
          quantumExt [], [Wire.new 2 0], [Wire.new 3 0]⟩,
        ⟨4, Operation.Custom "ConditionalX"
          (FunctionType.new [HugrType.Bool, HugrType.Qubit] [HugrType.Qubit]) quantumExt [],
          [Wire.new 3 0, Wire.new 0 0], [Wire.new 4 0]⟩,
        ⟨5, Operation.Output [HugrType.Qubit, HugrType.Qubit],
          [Wire.new 4 0, Wire.new 3 0], []⟩], 6, 0⟩ ∧
    ([⟨0, Operation.Input [HugrType.Qubit], [], []⟩,
      ⟨1, Operation.Custom "PrepareQubit" (FunctionType.new [] [HugrType.Qubit]) quantumExt [],
        [], [Wire.new 1 0]⟩,
      ⟨2, Operation.Custom "H" (FunctionType.new [HugrType.Qubit] [HugrType.Qubit]) quantumExt [],
        [Wire.new 1 0], [Wire.new 2 0]⟩,
      ⟨3, Operation.Custom "Measure" (FunctionType.new [HugrType.Qubit] [HugrType.Bool])
        quantumExt [], [Wire.new 2 0], [Wire.new 3 0]⟩,
      ⟨4, Operation.Custom "ConditionalX"
        (FunctionType.new [HugrType.Bool, HugrType.Qubit] [HugrType.Qubit]) quantumExt [],
        [Wire.new 3 0, Wire.new 0 0], [Wire.new 4 0]⟩,
      ⟨5, Operation.Output [HugrType.Qubit, HugrType.Qubit],
        [Wire.new 4 0, Wire.new 3 0], []⟩] : List Node).filter
      (fun n => match n.operation with
        | Operation.Custom name _ _ _ => name == "Rz"
        | _ => false) = [] := by
  decide

/-- Counterexample to C3 as stated: on the pattern
`({0}, {0}, [X(0, {7}), N 7, M(7, XY, 0)])`, a second `convert`
invocation on the *same* converter instance produces a different `Hugr`
than the first — the stale `classical_wires[7]` entry from the first run
makes the second run skip the `Const(false)`/`LoadConst` pair. -/
theorem determinism_counterexample :
    ((GraphixToHugrConverter.new.convert
        ⟨[0], [0], [Command.X 0 [7], Command.N 7, Command.M 7 Plane.XY 0]⟩).1.convert
        ⟨[0], [0], [Command.X 0 [7], Command.N 7, Command.M 7 Plane.XY 0]⟩).2 ≠
      (GraphixToHugrConverter.new.convert
        ⟨[0], [0], [Command.X 0 [7], Command.N 7, Command.M 7 Plane.XY 0]⟩).2 := by
  decide

/-- Amended C3: the conversion result is fully determined by the pattern
when every invocation starts from a fresh converter (as the public
`convert_graphix_pattern_to_hugr` does); two invocations on equal
patterns then yield field-for-field equal results.  Reusing one
converter instance does *not* have this property (see the
counterexample), because `convert` never clears the wire maps. -/
theorem convert_deterministic_fresh (p1 p2 : Pattern) (h : p1 = p2) :
    convert_graphix_pattern_to_hugr p1 = convert_graphix_pattern_to_hugr p2 := by
  rw [h]

/-- Witness for the amended C3. -/
theorem convert_deterministic_fresh_witness :
    (⟨[], [0], [Command.N 0]⟩ : Pattern) = ⟨[], [0], [Command.N 0]⟩ ∧
    convert_graphix_pattern_to_hugr ⟨[], [0], [Command.N 0]⟩ =
      convert_graphix_pattern_to_hugr ⟨[], [0], [Command.N 0]⟩ :=
  ⟨rfl, convert_deterministic_fresh _ _ rfl⟩

/-- Counterexample to C9 as stated: at angle exactly `1e-10` (the
threshold itself) the `Rz` rotation is *elided*, not emitted: the
produced graph for `({}, {}, [N 0, M(0, XY, 1e-10)])` contains no `Rz`
node — the guard is the strict `|angle| > 1e-10`. -/
theorem boundary_rotation_counterexample :
    |rustEps| = rustEps ∧
    convert_graphix_pattern_to_hugr ⟨[], [], [Command.N 0, Command.M 0 Plane.XY rustEps]⟩ =
      Except.ok ⟨[⟨0, Operation.Input [], [], []⟩,
        ⟨1, Operation.Custom "PrepareQubit" (FunctionType.new [] [HugrType.Qubit]) quantumExt [],
          [], [Wire.new 1 0]⟩,
        ⟨2, Operation.Custom "H" (FunctionType.new [HugrType.Qubit] [HugrType.Qubit]) quantumExt [],
          [Wire.new 1 0], [Wire.new 2 0]⟩,
        ⟨3, Operation.Custom "Measure" (FunctionType.new [HugrType.Qubit] [HugrType.Bool])
          quantumExt [], [Wire.new 2 0], [Wire.new 3 0]⟩,
        ⟨4, Operation.Output [HugrType.Qubit], [Wire.new 3 0], []⟩], 5, 0⟩ ∧
    ([⟨0, Operation.Input [], [], []⟩,
      ⟨1, Operation.Custom "PrepareQubit" (FunctionType.new [] [HugrType.Qubit]) quantumExt [],
        [], [Wire.new 1 0]⟩,
      ⟨2, Operation.Custom "H" (FunctionType.new [HugrType.Qubit] [HugrType.Qubit]) quantumExt [],
        [Wire.new 1 0], [Wire.new 2 0]⟩,
      ⟨3, Operation.Custom "Measure" (FunctionType.new [HugrType.Qubit] [HugrType.Bool])
        quantumExt [], [Wire.new 2 0], [Wire.new 3 0]⟩,
      ⟨4, Operation.Output [HugrType.Qubit], [Wire.new 3 0], []⟩] : List Node).filter
      (fun n => match n.operation with
        | Operation.Custom name _ _ _ => name == "Rz"
        | _ => false) = [] := by
  decide

/-- Amended C9: at the threshold boundary (`|angle| ≤ 1e-10`, in
particular `|angle| = 1e-10` exactly) the basis-change rotation is
*elided*: processing the `M` command on a bound identifier appends no
`Rx`/`Ry`/`Rz` node — only `H` + `Measure` for plane `XY`, and just
`Measure` for `YZ`/`XZ`. -/
theorem rotation_elided_at_threshold (node : Nat) (plane : Plane) (angle : ℚ)
    (s : ActiveConverter) (qw : Wire) (hq : mGet s.qubit_wires node = some qw)
    (hle : |angle| ≤ rustEps) :
    ∃ l, (process_measure node plane angle s).dfg.hugr.nodes = s.dfg.hugr.nodes ++ l ∧
      (∀ n ∈ l, ∀ name sig ext args, n.operation = Operation.Custom name sig ext args →
        name ≠ "Rx" ∧ name ≠ "Ry" ∧ name ≠ "Rz") ∧
      l.length = (match plane with | Plane.XY => 2 | Plane.YZ => 1 | Plane.XZ => 1) := by
  have hngt : ¬ (|angle| > rustEps) := not_lt.2 hle
  unfold process_measure
  rw [hq]
  cases plane with
  | XY =>
    simp only [if_neg hngt]
    refine ⟨[(s.dfg.add_op create_h_gate [qw]).2,
      ((s.dfg.add_op create_h_gate [qw]).1.add_op create_measure_op
        [(s.dfg.add_op create_h_gate [qw]).2.out 0]).2], ?_, ?_, rfl⟩
    · show ((s.dfg.add_op create_h_gate [qw]).1.add_op create_measure_op _).1.hugr.nodes = _
      rw [add_op_fst, add_op_fst]
      simp
    · intro n hn name sig ext args hop
      rcases List.mem_cons.1 hn with rfl | hn
      · rw [show (s.dfg.add_op create_h_gate [qw]).2.operation = create_h_gate from rfl] at hop
        unfold create_h_gate at hop
        injection hop with e1 _
        subst e1
        exact ⟨by decide, by decide, by decide⟩
      · rcases List.mem_cons.1 hn with rfl | hn
        · rw [show ((s.dfg.add_op create_h_gate [qw]).1.add_op create_measure_op
            [(s.dfg.add_op create_h_gate [qw]).2.out 0]).2.operation =
            create_measure_op from rfl] at hop
          unfold create_measure_op at hop
          injection hop with e1 _
          subst e1
          exact ⟨by decide, by decide, by decide⟩
        · exact absurd hn (List.not_mem_nil n)
  | YZ =>
    simp only [if_neg hngt]
    refine ⟨[(s.dfg.add_op create_measure_op [qw]).2], ?_, ?_, rfl⟩
    · show (s.dfg.add_op create_measure_op [qw]).1.hugr.nodes = _
      rw [add_op_fst]
    · intro n hn name sig ext args hop
      rcases List.mem_cons.1 hn with rfl | hn
      · rw [show (s.dfg.add_op create_measure_op [qw]).2.operation =
          create_measure_op from rfl] at hop
        unfold create_measure_op at hop
        injection hop with e1 _
        subst e1
        exact ⟨by decide, by decide, by decide⟩
      · exact absurd hn (List.not_mem_nil n)
  | XZ =>
    simp only [if_neg hngt]
    refine ⟨[(s.dfg.add_op create_measure_op [qw]).2], ?_, ?_, rfl⟩
    · show (s.dfg.add_op create_measure_op [qw]).1.hugr.nodes = _
      rw [add_op_fst]
    · intro n hn name sig ext args hop
      rcases List.mem_cons.1 hn with rfl | hn
      · rw [show (s.dfg.add_op create_measure_op [qw]).2.operation =
          create_measure_op from rfl] at hop
        unfold create_measure_op at hop
        injection hop with e1 _
        subst e1
        exact ⟨by decide, by decide, by decide⟩
      · exact absurd hn (List.not_mem_nil n)

/-- Witness for the amended C9 at angle exactly `1e-10`. -/
theorem rotation_elided_at_threshold_witness :
    mGet (ActiveConverter.mk (DfgBuilder.new [HugrType.Qubit])
      [(0, Wire.new 0 0)] [] []).qubit_wires 0 = some (Wire.new 0 0) ∧
    |rustEps| ≤ rustEps ∧
    ∃ l, (process_measure 0 Plane.XY rustEps (ActiveConverter.mk
        (DfgBuilder.new [HugrType.Qubit]) [(0, Wire.new 0 0)] [] [])).dfg.hugr.nodes =
      (ActiveConverter.mk (DfgBuilder.new [HugrType.Qubit])
        [(0, Wire.new 0 0)] [] []).dfg.hugr.nodes ++ l ∧
      (∀ n ∈ l, ∀ name sig ext args, n.operation = Operation.Custom name sig ext args →
        name ≠ "Rx" ∧ name ≠ "Ry" ∧ name ≠ "Rz") ∧
      l.length = (match Plane.XY with | Plane.XY => 2 | Plane.YZ => 1 | Plane.XZ => 1) :=
  ⟨by decide, by decide,
   rotation_elided_at_threshold 0 Plane.XY rustEps
     (ActiveConverter.mk (DfgBuilder.new [HugrType.Qubit]) [(0, Wire.new 0 0)] [] [])
     (Wire.new 0 0) (by decide) (by decide)⟩

end MQBCToHUGR
